import Mathlib

/-!
Shallow embedding of the core of the yass CDCL SAT solver (Go package
`internal/sat`) together with theorems about its operations.

Conventions of the embedding:
* Go slices indexed by variable or by literal are modelled as total
  functions from `ℕ`; a Go out-of-bounds access corresponds to reading
  the function outside the range covered by the theorems' hypotheses.
* Go clause pointers are modelled by clause identifiers (`ℕ`) into an
  arena `clauses : ℕ → Clause`; pointer equality becomes identifier
  equality.
* The three bits of the Go `statusMask` bitmask (`statusDeleted`,
  `statusLearnt`, `statusProtected`) are modelled as three `Bool`
  fields.
* `float64` activities are modelled as rationals: the solver only adds
  positive increments and rescales by positive factors, so ordering is
  the only structure the algorithms use.
* the timestamped `ResetSet` is modelled by the finite set of its
  current elements (`Clear` starts from the empty set, `Add` inserts,
  `Contains` is membership).

Where `solver.go` contains two concatenated revisions of the solver, the
second revision (lines 649 onwards, the one whose statistics live in the
`Statistics` record) is the one embedded; deviations of the other
revision are noted at the theorems they affect.
-/

namespace Yass

/-- Lifted boolean of `lbool.go`: `Unknown = 0`, `True = 1`, `False = -1`. -/
inductive LBool where
  | lunknown : LBool
  | ltrue : LBool
  | lfalse : LBool
deriving DecidableEq, Repr

/-- The `LBool.Opposite` method of `lbool.go`: negation of the lifted value. -/
def LBool.opposite : LBool → LBool
  | .lunknown => .lunknown
  | .ltrue => .lfalse
  | .lfalse => .ltrue

/-- The `Lift` function of `lbool.go`. -/
def LBool.lift (b : Bool) : LBool :=
  if b then .ltrue else .lfalse

/-- Literals as encoded in the `Literal` type: variable `v` yields the
positive literal `2v` and the negative literal `2v + 1`. -/
abbrev Literal := ℕ

/-- The `PositiveLiteral` function: `v * 2`. -/
def PositiveLiteral (v : ℕ) : ℕ := v * 2

/-- The `NegativeLiteral` function: `v * 2 + 1`. -/
def NegativeLiteral (v : ℕ) : ℕ := v * 2 + 1

/-- The `Literal.VarID` method: `l / 2`. -/
def VarID (l : ℕ) : ℕ := l / 2

/-- The `Literal.IsPositive` method: `l & 1 == 0`. -/
def IsPositive (l : ℕ) : Bool := l &&& 1 == 0

/-- The `Literal.Opposite` method: `l ^ 1`. -/
def opposite (l : ℕ) : ℕ := l ^^^ 1

/-- Clause of `clauses.go`. The Go `statusMask` bitmask is modelled by the
three `Bool` fields `deleted`, `learnt` and `protect` (for `statusDeleted`,
`statusLearnt` and `statusProtected`); `activity` is modelled as a rational. -/
structure Clause where
  activity : ℚ
  literals : List ℕ
  deleted : Bool
  learnt : Bool
  protect : Bool
  lbd : ℕ
deriving DecidableEq, Repr

/-- The `Clause.isProtected` method. -/
def Clause.isProtected (c : Clause) : Bool := c.protect

/-- The `Clause.setProtected` method. -/
def Clause.setProtected (c : Clause) : Clause := { c with protect := true }

/-- The `Clause.setUnprotected` method. -/
def Clause.setUnprotected (c : Clause) : Clause := { c with protect := false }

/-- The `Clause.isLearnt` method. -/
def Clause.isLearnt (c : Clause) : Bool := c.learnt

/-- Watcher of `solver.go`: a clause (modelled by its arena identifier) and
its guard literal. -/
structure Watcher where
  clause : ℕ
  guard : ℕ
deriving DecidableEq, Repr

/-- The `VarOrder` of `ordering.go`. The external `yagh.IntMap` binary heap
is modelled by the list `heap` of variable identifiers currently present in
the heap; its ordered-pop behaviour is modelled from the spec (see
`heapPopBest`). `scores` and `phases` model the Go slices indexed by
variable. -/
structure VarOrder where
  heap : List ℕ
  scores : ℕ → ℚ
  scoreInc : ℚ
  scoreDecay : ℚ
  phases : ℕ → LBool
  phaseSaving : Bool

/-- Solver state of `solver.go`. Go slices indexed by literal or variable
become total functions; the clause objects live in the arena `clauses`
indexed by clause identifier (`numClauses` identifiers are in use), and the
clause database lists `constraints` and `learnts`, the watcher lists and the
`assignReasons` entries refer to clauses through their identifiers. The
propagation `Queue[Literal]` is modelled by the list `propQueue` (see the
`Queue` refinement proof below for the FIFO correspondence). -/
structure Solver where
  order : VarOrder
  unsat : Bool
  assigns : ℕ → LBool
  assignReasons : ℕ → Option ℕ
  assignLevels : ℕ → ℤ
  clauses : ℕ → Clause
  numClauses : ℕ
  constraints : List ℕ
  learnts : List ℕ
  clauseInc : ℚ
  clauseDecay : ℚ
  watchers : ℕ → List Watcher
  propQueue : List ℕ
  trail : List ℕ
  trailLim : List ℕ

/-- The `Solver.decisionLevel` method: `len(s.trailLim)`. -/
def Solver.decisionLevel (s : Solver) : ℕ := s.trailLim.length

/-- The `Solver.LitValue` method: `s.assigns[l]`. -/
def Solver.LitValue (s : Solver) (l : ℕ) : LBool := s.assigns l

/-- The `Solver.VarValue` method: `s.assigns[PositiveLiteral(x)]`. -/
def Solver.VarValue (s : Solver) (x : ℕ) : LBool := s.assigns (PositiveLiteral x)

/-- The `Solver.NumAssigns` method: `len(s.trail)`. -/
def Solver.NumAssigns (s : Solver) : ℕ := s.trail.length

/-- The `Solver.enqueue` method of `solver.go`: on `False` report a
conflict, on `True` do nothing, otherwise record the assignment of `l` with
the given reason at the current decision level and push `l` on the trail
and the propagation queue. -/
def Solver.enqueue (s : Solver) (l : ℕ) (from_ : Option ℕ) : Solver × Bool :=
  match s.LitValue l with
  | .lfalse => (s, false)
  | .ltrue => (s, true)
  | .lunknown =>
      let varID := VarID l
      ({ s with
          assigns := Function.update (Function.update s.assigns l .ltrue)
            (opposite l) .lfalse
          assignLevels := Function.update s.assignLevels varID
            (s.decisionLevel : ℤ)
          assignReasons := Function.update s.assignReasons varID from_
          trail := s.trail ++ [l]
          propQueue := s.propQueue ++ [l] }, true)

/-- Loop of the `Solver.computeLBD` method: walk the literals, counting the
assignment levels not yet in the `seenLevel` set (modelled by `seen`). -/
def computeLBDLoop (levels : ℕ → ℤ) : List ℕ → Finset ℤ → ℕ → ℕ
  | [], _, lbd => lbd
  | lit :: rest, seen, lbd =>
      let l := levels (VarID lit)
      if l ∈ seen then computeLBDLoop levels rest seen lbd
      else computeLBDLoop levels rest (insert l seen) (lbd + 1)

/-- The `Solver.computeLBD` method of `solver.go`: the `seenLevel` set is
cleared, level `0` is pre-added, and the loop counts the remaining distinct
assignment levels of the literals. -/
def Solver.computeLBD (s : Solver) (literals : List ℕ) : ℕ :=
  computeLBDLoop s.assignLevels literals {0} 0

/-- An inert clause used to fill the arena of example states. -/
def egClause0 : Clause :=
  { activity := 0, literals := [], deleted := false, learnt := false,
    protect := false, lbd := 0 }

/-- An empty variable order used by example states. -/
def egOrder0 : VarOrder :=
  { heap := [], scores := fun _ => 0, scoreInc := 1, scoreDecay := 1,
    phases := fun _ => .lunknown, phaseSaving := false }

/-- A fresh solver state with no variables, used as the base of the concrete
states appearing in witnesses. -/
def egSolver0 : Solver :=
  { order := egOrder0
    unsat := false
    assigns := fun _ => .lunknown
    assignReasons := fun _ => none
    assignLevels := fun _ => -1
    clauses := fun _ => egClause0
    numClauses := 0
    constraints := []
    learnts := []
    clauseInc := 1
    clauseDecay := 1
    watchers := fun _ => []
    propQueue := []
    trail := []
    trailLim := [] }

/-- A solver state with four assigned variables at levels 0, 1, 1 and 2,
used to witness the `computeLBD` theorem. -/
def egSolverLBD : Solver :=
  { egSolver0 with
      assignLevels := fun v => if v = 0 then 0 else if v = 1 then 1 else
        if v = 2 then 1 else if v = 3 then 2 else -1 }

/-- The comparator passed to `sort.Slice` in `Solver.ReduceDB`: the Go
`switch` falls from the length test to the lbd test to the activity test,
returning `true` at the first test that holds. -/
def reduceDBLess (ci cj : Clause) : Bool :=
  if 2 < ci.literals.length ∧ cj.literals.length = 2 then true
  else if cj.lbd < ci.lbd then true
  else if ci.activity < cj.activity then true
  else false

/-- Comparison following the spec's words for `reduce_db` ("sort learnts
worst-first by the total order: longer (len > 2 beats len == 2), then
higher lbd, then lower activity"): a lexicographic chain in which each key
is consulted only when the previous keys tie. -/
def specLexLess (ci cj : Clause) : Bool :=
  if 2 < ci.literals.length ∧ cj.literals.length = 2 then true
  else if 2 < cj.literals.length ∧ ci.literals.length = 2 then false
  else if cj.lbd < ci.lbd then true
  else if ci.lbd < cj.lbd then false
  else if ci.activity < cj.activity then true
  else false

/-- The `Clause.locked` method of `clauses.go`: the clause (identified by
`cid`) is the recorded reason for its first literal's variable. -/
def locked (s : Solver) (cid : ℕ) : Bool :=
  s.assignReasons (VarID ((s.clauses cid).literals.headI)) == some cid

/-- The `Solver.Watch` method: append the watcher to the watch literal's
list. -/
def Solver.Watch (s : Solver) (cid : ℕ) (watch guard : ℕ) : Solver :=
  { s with watchers := Function.update s.watchers watch
              (s.watchers watch ++ [⟨cid, guard⟩]) }

/-- The `Solver.Unwatch` method: remove every watcher of clause `cid` from
the watch literal's list, keeping the order of the others. -/
def Solver.Unwatch (s : Solver) (cid : ℕ) (watch : ℕ) : Solver :=
  { s with watchers := Function.update s.watchers watch
              ((s.watchers watch).filter (fun w => w.clause ≠ cid)) }

/-- The `Clause.Delete` method of `clauses.go`: mark the clause deleted,
unwatch it from the two watcher lists of its watched literals' opposites,
and drop its literal storage. -/
def Solver.deleteClause (s : Solver) (cid : ℕ) : Solver :=
  let c := s.clauses cid
  let s1 := s.Unwatch cid (opposite c.literals.headI)
  let s2 := s1.Unwatch cid (opposite (c.literals.getD 1 0))
  { s2 with clauses := Function.update s2.clauses cid
               { c with deleted := true, literals := [] } }

/-- Clearing of the protected flag of clause `cid` performed by the
retention branch of the `ReduceDB` loop (a no-op when the clause is not
protected). -/
def unprotectIfProtected (s : Solver) (cid : ℕ) : Solver :=
  if (s.clauses cid).isProtected then
    { s with clauses := Function.update s.clauses cid
                (s.clauses cid).setUnprotected }
  else s

/-- The deletion loop of `Solver.ReduceDB` over the sorted learnt
identifiers: delete a clause while budget remains unless it is locked, has
lbd at most 2, has at most two literals, or is protected; a retained
protected clause is unprotected and refunds one deletion. Returns the final
state and the retained identifiers in order. -/
def reduceLoop : Solver → List ℕ → ℕ → Solver × List ℕ
  | s, [], _ => (s, [])
  | s, cid :: rest, toDelete =>
      if 0 < toDelete ∧ locked s cid = false ∧ 2 < (s.clauses cid).lbd
          ∧ 2 < (s.clauses cid).literals.length
          ∧ (s.clauses cid).isProtected = false then
        reduceLoop (s.deleteClause cid) rest (toDelete - 1)
      else
        let p := reduceLoop (unprotectIfProtected s cid) rest
          (if (s.clauses cid).isProtected then toDelete + 1 else toDelete)
        (p.1, cid :: p.2)

/-- The protection pass of `Solver.ReduceDB`: set the protected flag of the
clauses in the last tenth of the sorted list (the "10% best"). -/
def setProtectedIds (s : Solver) (ids : List ℕ) : Solver :=
  ids.foldl (fun s cid =>
    { s with clauses := Function.update s.clauses cid
                (s.clauses cid).setProtected }) s

/-- The `Solver.ReduceDB` method after its `sort.Slice` call. The
comparator handed to `sort.Slice` is not a strict weak order (see
`reduceDBLess_spec`), so the Go sort is only guaranteed to produce some
permutation of `learnts`; the post-sort ordering is therefore taken as the
argument `sorted`. The state is updated by the protection pass and the
deletion loop, and `learnts` becomes the retained identifiers. -/
def Solver.reduceDBSorted (s : Solver) (sorted : List ℕ) : Solver :=
  let s1 := setProtectedIds s (sorted.drop (sorted.length * 90 / 100))
  let p := reduceLoop s1 sorted (sorted.length / 2)
  { p.1 with learnts := p.2 }

/-- Clause example (2 literals, lbd 3, activity 0) for the `ReduceDB`
comparator theorems. -/
def egClauseA : Clause :=
  { activity := 0, literals := [0, 2], deleted := false, learnt := true,
    protect := false, lbd := 3 }

/-- Clause example (2 literals, lbd 5, activity 1) for the `ReduceDB`
comparator theorems. -/
def egClauseB : Clause :=
  { activity := 1, literals := [1, 3], deleted := false, learnt := true,
    protect := false, lbd := 5 }

/-- Solver state with a single short learnt clause, used to witness the
`ReduceDB` retention theorem. -/
def egSolverRD : Solver :=
  { egSolver0 with
      numClauses := 1
      clauses := fun _ => egClauseA
      learnts := [0] }

/-- Retention condition of the `ReduceDB` deletion loop for clause `cid`:
locked, or lbd at most 2, or at most two literals, or protected. -/
def KeepCond (s : Solver) (cid : ℕ) : Prop :=
  locked s cid = true ∨ (s.clauses cid).lbd ≤ 2
  ∨ (s.clauses cid).literals.length ≤ 2 ∨ (s.clauses cid).isProtected = true

/-- The `NewClause` function of `clauses.go` (package `internal/sat`)
specialized to `learnt = true`, for which the preprocessing block guarded
by `if !learnt` is skipped and `size` stays `len(tmpLiterals)`. By size:
empty clause reports UNSAT, a unit clause is enqueued directly, and
otherwise a fresh clause object is allocated with a copy of the literals,
the scan starting at `i = 1` swaps into position 1 the literal whose
assignment level is highest (the first strict improvement wins), and the
clause is watched on the opposites of its first two literals, each carrying
the other as guard. Returns the state, the clause identifier if one was
allocated, and the `ok` flag. -/
def NewClauseLearnt (s : Solver) (tmpLiterals : List ℕ) :
    Solver × Option ℕ × Bool :=
  if tmpLiterals.length = 0 then (s, none, false)
  else if tmpLiterals.length = 1 then
    ((s.enqueue (tmpLiterals.getD 0 0) none).1, none,
      (s.enqueue (tmpLiterals.getD 0 0) none).2)
  else
    let cid := s.numClauses
    let scan := ((List.range tmpLiterals.length).drop 1).foldl
      (fun (p : ℤ × ℤ) i =>
        if p.1 < s.assignLevels (VarID (tmpLiterals.getD i 0)) then
          (s.assignLevels (VarID (tmpLiterals.getD i 0)), (i : ℤ))
        else p)
      (-1, -1)
    let wl := scan.2.toNat
    let lits := (tmpLiterals.set wl (tmpLiterals.getD 1 0)).set 1
      (tmpLiterals.getD wl 0)
    let c : Clause := { activity := 0, literals := lits, deleted := false,
                        learnt := true, protect := false, lbd := 0 }
    let s1 := { s with clauses := Function.update s.clauses cid c
                       numClauses := s.numClauses + 1 }
    let s2 := s1.Watch cid (opposite (lits.getD 0 0)) (lits.getD 1 0)
    let s3 := s2.Watch cid (opposite (lits.getD 1 0)) (lits.getD 0 0)
    (s3, some cid, true)

/-- Solver state with variables 1 and 2 assigned at levels 1 and 2, used to
witness the `NewClauseLearnt` theorem on the literal list `[0, 2, 4]`. -/
def egSolverNC : Solver :=
  { egSolver0 with
      assignLevels := fun v => if v = 1 then 1 else if v = 2 then 2 else -1 }

/-- Modelled from the spec: the ordered `Pop` of the external
`yagh.IntMap` binary heap used by `VarOrder` is not part of this
repository; spec section 4.1 states that it yields the element with the
highest score with ties broken by the lower element id (`Put` stores the
negated score, so the min-heap pops the highest-scored variable).
`heapBest` selects that element among the identifiers in the heap. -/
def heapBest (scores : ℕ → ℚ) : List ℕ → Option ℕ
  | [] => none
  | v :: rest =>
      match heapBest scores rest with
      | none => some v
      | some w =>
          if scores w < scores v ∨ (scores w = scores v ∧ v < w) then some v
          else some w

/-- Modelled from the spec: popping the `yagh.IntMap` heap removes and
returns its best element (see `heapBest`). -/
def heapPop (scores : ℕ → ℚ) (heap : List ℕ) : Option (ℕ × List ℕ) :=
  match heapBest scores heap with
  | none => none
  | some v => some (v, heap.erase v)

/-- The phase switch of `VarOrder.NextDecision` in `ordering.go`: positive
literal for a `True` saved phase, negative for `False`, positive for the
`Unknown` default. (The `part_003` variant of `VarOrder` instead returns
the negative literal for `Unknown`.) -/
def phaseLiteral (vo : VarOrder) (v : ℕ) : ℕ :=
  match vo.phases v with
  | .ltrue => PositiveLiteral v
  | .lfalse => NegativeLiteral v
  | .lunknown => PositiveLiteral v

/-- The pop-until-unassigned loop of `VarOrder.NextDecision`: pop the heap,
skip variables whose value is no longer `Unknown`, and return the saved
phase literal of the first unassigned one together with the updated order.
The Go `for` loop is modelled with fuel; the heap (whose size bounds the
iterations) shrinks by one per pop. An empty heap is the fatal
`log.Fatalln` path, modelled by `none`. -/
def nextDecisionLoop (s : Solver) : VarOrder → ℕ → Option (ℕ × VarOrder)
  | _, 0 => none
  | vo, fuel + 1 =>
      match heapPop vo.scores vo.heap with
      | none => none
      | some (next, rest) =>
          if s.VarValue next ≠ .lunknown then
            nextDecisionLoop s { vo with heap := rest } fuel
          else
            some (phaseLiteral vo next, { vo with heap := rest })

/-- The `VarOrder.NextDecision` method of `ordering.go`, with the heap size
as fuel for the pop loop. -/
def NextDecision (vo : VarOrder) (s : Solver) : Option (ℕ × VarOrder) :=
  nextDecisionLoop s vo vo.heap.length

/-- Solver state with three variables in the heap, two of them already
assigned, used to witness the `NextDecision` theorem. -/
def egSolverND : Solver :=
  { egSolver0 with
      order := { egOrder0 with
                   heap := [0, 1, 2]
                   scores := fun v => if v = 0 then 5 else if v = 1 then 3
                     else 2
                   phases := fun v => if v = 1 then .lfalse else .lunknown }
      assigns := fun l => if l = 0 then .ltrue else .lunknown }

/-- The generic ring-buffer `Queue` of `clauses.go`: `ring` is the backing
slice, `mask` is `len(ring) - 1`, `start` and `end_` are the read and write
positions, and `size` the element count (the Go field `end` is a Lean
keyword, hence `end_`). -/
structure Queue (T : Type) where
  ring : List T
  mask : ℕ
  start : ℕ
  end_ : ℕ
  size : ℕ
deriving Repr

/-- The `nextPower2` helper of `clauses.go`: or-fold of the right shifts,
plus one. -/
def nextPower2 (i : ℕ) : ℕ :=
  let i1 := i ||| (i >>> 1)
  let i2 := i1 ||| (i1 >>> 2)
  let i3 := i2 ||| (i2 >>> 4)
  let i4 := i3 ||| (i3 >>> 8)
  let i5 := i4 ||| (i4 >>> 16)
  let i6 := i5 ||| (i5 >>> 32)
  i6 + 1

/-- The `NewQueue` constructor: a zeroed ring of capacity `nextPower2
capa`. -/
def NewQueue (T : Type) [Inhabited T] (capa : ℕ) : Queue T :=
  let capa2 := nextPower2 capa
  { ring := List.replicate capa2 default
    mask := capa2 - 1
    start := 0
    end_ := 0
    size := 0 }

/-- The `Queue.IsEmpty` method. -/
def Queue.IsEmpty {T : Type} (q : Queue T) : Bool := q.size == 0

/-- The `Queue.Size` method. -/
def Queue.Size {T : Type} (q : Queue T) : ℕ := q.size

/-- The `Queue.Clear` method. -/
def Queue.Clear {T : Type} (q : Queue T) : Queue T :=
  { q with start := 0, end_ := 0, size := 0 }

/-- The `Queue.resize` method: double the backing slice. With `start = 0`
the old ring is copied to the front; otherwise the elements from `start`
to the end of the ring are copied first and the `end_` wrapped elements
after them, `start` becomes 0 and `end_` the old ring length. -/
def Queue.resize {T : Type} [Inhabited T] (q : Queue T) : Queue T :=
  if q.start = 0 then
    { ring := q.ring ++ List.replicate q.ring.length default
      mask := 2 * q.ring.length - 1
      start := q.start
      end_ := q.size
      size := q.size }
  else
    { ring := q.ring.drop q.start ++ q.ring.take q.end_ ++
        List.replicate (2 * q.ring.length - (q.ring.length - q.start)
          - q.end_) default
      mask := 2 * q.ring.length - 1
      start := 0
      end_ := q.ring.length
      size := q.size }

/-- The `Queue.Push` method: resize when full, write at `end_`, advance
`end_` with the mask. -/
def Queue.Push {T : Type} [Inhabited T] (q0 : Queue T) (elem : T) : Queue T :=
  let q := if q0.size = q0.ring.length then q0.resize else q0
  { q with ring := q.ring.set q.end_ elem
           end_ := (q.end_ + 1) &&& q.mask
           size := q.size + 1 }

/-- The `Queue.Pop` method: read at `start`, advance `start` with the
mask. The Go code panics on an empty queue; that path is modelled by
returning `default` and leaving the queue unchanged. -/
def Queue.Pop {T : Type} [Inhabited T] (q : Queue T) : T × Queue T :=
  if q.size = 0 then (default, q)
  else
    (q.ring.getD q.start default,
     { q with start := (q.start + 1) &&& q.mask, size := q.size - 1 })

/-- Abstraction function of the ring buffer: the `size` stored elements
read from `start` onwards, wrapping with the mask. -/
def Queue.toList {T : Type} [Inhabited T] (q : Queue T) : List T :=
  (List.range q.size).map (fun i => q.ring.getD ((q.start + i) &&& q.mask)
    default)

/-- Structural invariant of the ring buffer: the ring length is a power of
two matched by the mask, `start` is in range, the queue is not overfull,
and `end_` is `start + size` wrapped. -/
def Queue.Inv {T : Type} (q : Queue T) : Prop :=
  ∃ k : ℕ, q.ring.length = 2 ^ k ∧ q.mask = 2 ^ k - 1
    ∧ q.start < q.ring.length ∧ q.size ≤ q.ring.length
    ∧ q.end_ = (q.start + q.size) % q.ring.length

/-- A queue operation: push a value or pop the front. -/
inductive QOp (T : Type) where
  | push : T → QOp T
  | pop : QOp T
deriving Repr

/-- Run a sequence of operations on a ring-buffer queue, collecting the
popped values in order. -/
def runOps {T : Type} [Inhabited T] (q : Queue T) : List (QOp T) → Queue T × List T
  | [] => (q, [])
  | .push x :: rest => runOps (q.Push x) rest
  | .pop :: rest =>
      let p := q.Pop
      let r := runOps p.2 rest
      (r.1, p.1 :: r.2)

/-- Run the same operations on the reference model, a plain list queue. -/
def runModel {T : Type} [Inhabited T] (m : List T) : List (QOp T) → List T × List T
  | [] => (m, [])
  | .push x :: rest => runModel (m ++ [x]) rest
  | .pop :: rest =>
      let r := runModel m.tail rest
      (r.1, m.headI :: r.2)

/-- An operation sequence is valid when every pop happens on a non-empty
queue. -/
def validOps {T : Type} (m : List T) : List (QOp T) → Bool
  | [] => true
  | .push x :: rest => validOps (m ++ [x]) rest
  | .pop :: rest => !m.isEmpty && validOps m.tail rest

/-- Operation sequence used to witness the queue FIFO theorem: it fills
the two-slot ring, pops once so `start` is nonzero, and pushes again so the
resize copies wrapped contents. -/
def egQueueOps : List (QOp ℕ) :=
  [.push 10, .push 20, .pop, .push 30, .push 40, .pop, .pop, .pop]

/-- The `VarOrder.Reinsert` method of `ordering.go`: record the phase when
phase saving is enabled and put the variable back into the heap (the
`yagh.IntMap.Put` insert-or-update is modelled from the spec: it makes the
variable present in the heap; the score stays in `scores`). -/
def VarOrder.Reinsert (vo : VarOrder) (v : ℕ) (val : LBool) : VarOrder :=
  { vo with
      phases := if vo.phaseSaving then Function.update vo.phases v val
        else vo.phases
      heap := if v ∈ vo.heap then vo.heap else vo.heap ++ [v] }

/-- The `Solver.unnassignedLast` method of `solver.go`: pop the last trail
literal, hand the variable back to the order together with its current
value, and clear both literal values, the reason, and the level. -/
def Solver.unnassignedLast (s : Solver) : Solver :=
  let l := s.trail.getLastD 0
  let v := VarID l
  { s with
      order := s.order.Reinsert v (s.VarValue v)
      assigns := Function.update (Function.update s.assigns l .lunknown)
        (opposite l) .lunknown
      assignReasons := Function.update s.assignReasons v none
      assignLevels := Function.update s.assignLevels v (-1)
      trail := s.trail.dropLast }

/-- `n` iterations of the inner loop of `Solver.backtrackTo`. -/
def unassignN : Solver → ℕ → Solver
  | s, 0 => s
  | s, n + 1 => unassignN s.unnassignedLast n

/-- One iteration of the `Solver.backtrackTo` loop body: pop the literals
down to the latest level marker (`c := len(s.trail) - s.trailLim.top`
calls to `unnassignedLast`) and drop that marker. -/
def backtrackStep (s : Solver) : Solver :=
  let s1 := unassignN s (s.trail.length - s.trailLim.getLastD 0)
  { s1 with trailLim := s1.trailLim.dropLast }

/-- The outer loop of `Solver.backtrackTo`: while the decision level
exceeds the target, run one `backtrackStep`. The Go `for` loop is given
the initial decision level as fuel (one marker is removed per
iteration). -/
def backtrackLoop (level : ℕ) : Solver → ℕ → Solver
  | s, 0 => s
  | s, fuel + 1 =>
      if level < s.decisionLevel then backtrackLoop level (backtrackStep s) fuel
      else s

/-- The `Solver.backtrackTo` method of `solver.go`. -/
def Solver.backtrackTo (s : Solver) (level : ℕ) : Solver :=
  backtrackLoop level s s.decisionLevel

/-- Decision level of trail position `p`: the number of level markers at
or before `p` (marker `k` is the trail position of the first literal of
decision level `k + 1`). -/
def levelOfPos (s : Solver) (p : ℕ) : ℕ :=
  (s.trailLim.filter (fun m => m ≤ p)).length

/-- Trail position of the first literal above decision level `t`: the
marker at index `t`, or the trail length when `t` is the current level. -/
def trailMarker (s : Solver) (t : ℕ) : ℕ :=
  if t < s.trailLim.length then s.trailLim.getD t 0 else s.trail.length

/-- Well-formedness of the trail bookkeeping, as maintained by the solver:
markers are within the trail and sorted; every trail literal is assigned
`True` (its opposite `False`) at the level given by its position; trail
variables are distinct; and every variable with a non-negative recorded
level is on the trail. -/
def TrailWF (s : Solver) : Prop :=
  (∀ i : ℕ, i < s.trailLim.length → s.trailLim.getD i 0 ≤ s.trail.length)
  ∧ (∀ i j : ℕ, i ≤ j → j < s.trailLim.length →
      s.trailLim.getD i 0 ≤ s.trailLim.getD j 0)
  ∧ (∀ p : ℕ, p < s.trail.length →
      s.assigns (s.trail.getD p 0) = .ltrue
      ∧ s.assigns (opposite (s.trail.getD p 0)) = .lfalse
      ∧ s.assignLevels (VarID (s.trail.getD p 0)) = (levelOfPos s p : ℤ))
  ∧ (s.trail.map VarID).Nodup
  ∧ (∀ v : ℕ, (0 : ℤ) ≤ s.assignLevels v →
      ∃ p, p < s.trail.length ∧ VarID (s.trail.getD p 0) = v)

/-- Solver state with variable 0 assigned at level 0 and variable 1
assigned at level 1 (phase saving on), used to witness the `backtrackTo`
theorem. -/
def egSolverBT : Solver :=
  { egSolver0 with
      order := { egOrder0 with phaseSaving := true }
      assigns := fun l => if l = 0 then .ltrue else if l = 1 then .lfalse
        else if l = 2 then .ltrue else if l = 3 then .lfalse else .lunknown
      assignLevels := fun v => if v = 0 then 0 else if v = 1 then 1 else -1
      trail := [0, 2]
      trailLim := [1] }

/-- The `Clause.explainConflict` method of `clauses.go`: the opposites of
all the clause's literals. -/
def Clause.explainConflict (c : Clause) : List ℕ :=
  c.literals.map opposite

/-- The `Clause.explainAssign` method of `clauses.go`: the opposites of the
clause's literals except the first one. -/
def Clause.explainAssign (c : Clause) : List ℕ :=
  (c.literals.drop 1).map opposite

/-- Mutable state of the `Solver.analyze` loop: the set of seen variables
(`s.seenVar`), the implication-point counter, the tail of the learnt-clause
buffer (`s.tmpLearnts[1:]`, position 0 being reserved for the FUIP), and
the running backtrack level. -/
structure AnalyzeState where
  seen : Finset ℕ
  nIP : ℤ
  learnts : List ℕ
  btLevel : ℤ

/-- The `for _, q := range s.tmpReason` loop of `Solver.analyze`:
unseen variables are marked seen; those at the current decision level
count as implication points, the others contribute their opposite literal
to the learnt clause and raise the backtrack level. -/
def processReason (s : Solver) : List ℕ → AnalyzeState → AnalyzeState
  | [], st => st
  | q :: qs, st =>
      let v := VarID q
      if v ∈ st.seen then processReason s qs st
      else
        let st1 := { st with seen := insert v st.seen }
        if s.assignLevels v = (s.decisionLevel : ℤ) then
          processReason s qs { st1 with nIP := st1.nIP + 1 }
        else
          processReason s qs
            { st1 with
                btLevel := max st1.btLevel (s.assignLevels v)
                learnts := st1.learnts ++ [opposite q] }

/-- The inner `for { trailTop--; ... }` loop of `Solver.analyze`: walk the
trail downwards from `trailTop` until a literal of a seen variable is
found, returning its position (`none` models falling off the trail, which
in Go would panic). -/
def selectNext (s : Solver) (seen : Finset ℕ) : ℕ → Option ℕ
  | 0 => none
  | t + 1 =>
      if VarID (s.trail.getD t 0) ∈ seen then some t
      else selectNext s seen t

/-- The outer `for` loop of `Solver.analyze`, given enough fuel (the loop
strictly decreases `trailTop`). Each iteration explains the current clause
(the conflicting clause on the first iteration, an assignment reason
afterwards), selects the next seen literal on the trail, and stops when a
single implication point remains; a missing reason models the nil
dereference Go would hit. The opportunistic LBD/protect/activity updates
of the visited clauses write only clause metadata that the rest of the
analysis never reads, and are not modelled. -/
def analyzeLoop (s : Solver) :
    ℕ → Clause → Bool → ℕ → AnalyzeState → Option (ℕ × AnalyzeState)
  | 0, _, _, _, _ => none
  | fuel + 1, c, isConfl, trailTop, st =>
      let reasonLits := if isConfl then c.explainConflict else c.explainAssign
      let st1 := processReason s reasonLits st
      match selectNext s st1.seen trailTop with
      | none => none
      | some t =>
          let st2 := { st1 with nIP := st1.nIP - 1 }
          if st2.nIP ≤ 0 then some (t, st2)
          else
            match s.assignReasons (VarID (s.trail.getD t 0)) with
            | none => none
            | some cid => analyzeLoop s fuel (s.clauses cid) false t st2

/-- The `Solver.analyze` method of `solver.go`: run the analysis loop from
the conflicting clause with the full trail, then place the opposite of the
first-UIP literal at position 0 of the learnt clause and compute its
LBD. -/
def Solver.analyze (s : Solver) (conflicting : Clause) :
    Option (List ℕ × ℕ × ℤ) :=
  match analyzeLoop s (s.trail.length + 1) conflicting true s.trail.length
      { seen := ∅, nIP := 0, learnts := [], btLevel := 0 } with
  | none => none
  | some (t, st) =>
      let lits := opposite (s.trail.getD t 0) :: st.learnts
      some (lits, s.computeLBD lits, st.btLevel)

/-- Coherence of `assigns` with `assignLevels`: a literal with a decided
value belongs to a variable with a recorded (non-negative) level. -/
def AssignsWF (s : Solver) : Prop :=
  ∀ l : ℕ, s.assigns l ≠ .lunknown → (0 : ℤ) ≤ s.assignLevels (VarID l)

/-- Well-formedness of the recorded reasons: the tail literals (positions
`1..`) of the reason of a trail literal are all assigned False, by
variables appearing strictly earlier on the trail. -/
def ReasonsWF (s : Solver) : Prop :=
  ∀ p : ℕ, p < s.trail.length →
    ∀ cid : ℕ, s.assignReasons (VarID (s.trail.getD p 0)) = some cid →
      ∀ i : ℕ, 1 ≤ i → i < (s.clauses cid).literals.length →
        s.assigns ((s.clauses cid).literals.getD i 0) = .lfalse
        ∧ ∃ q : ℕ, q < p ∧ VarID (s.trail.getD q 0)
            = VarID ((s.clauses cid).literals.getD i 0)

/-- Every trail literal strictly above the latest level marker (that is,
every propagated literal of the current decision level) has a recorded
reason. -/
def ReasonExists (s : Solver) : Prop :=
  ∀ p : ℕ, p < s.trail.length → s.trailLim.getLastD 0 < p →
    s.assignReasons (VarID (s.trail.getD p 0)) ≠ none

/-- Properties of the clause `Propagate` returns as conflicting: all its
literals are assigned False, at least one of them at the current decision
level. -/
def ConflictWF (s : Solver) (c : Clause) : Prop :=
  (∀ l ∈ c.literals, s.assigns l = .lfalse)
  ∧ ∃ l ∈ c.literals, s.assignLevels (VarID l) = (s.decisionLevel : ℤ)

/-- Conflicting clause `¬x0 ∨ ¬x1` for the `analyze` witness: both
literals are False in `egSolverBT`, literal `3` at the current decision
level 1. -/
def egClauseCF : Clause :=
  { activity := 0, literals := [1, 3], deleted := false, learnt := false,
    protect := false, lbd := 0 }

/-- Positions below `T` on the trail holding a seen variable of the
current decision level: the implication points not yet resolved by the
analysis. -/
def seenDLPos (s : Solver) (seen : Finset ℕ) (T : ℕ) : Finset ℕ :=
  (Finset.range T).filter (fun p =>
    VarID (s.trail.getD p 0) ∈ seen
    ∧ s.assignLevels (VarID (s.trail.getD p 0)) = (s.decisionLevel : ℤ))

/-- Invariant of the `analyze` loop state at trail cursor `T`: the
implication-point counter counts the unresolved seen positions of the
current level, and the learnt tail carries only False literals of lower
levels, whose maximum level is the running backtrack level. -/
def AnalyzeInv (s : Solver) (st : AnalyzeState) (T : ℕ) : Prop :=
  st.nIP = ((seenDLPos s st.seen T).card : ℤ)
  ∧ (∀ l ∈ st.learnts,
      s.assigns l = .lfalse
      ∧ s.assignLevels (VarID l) < (s.decisionLevel : ℤ)
      ∧ s.assignLevels (VarID l) ≤ st.btLevel)
  ∧ (st.btLevel = 0 ∨ ∃ l ∈ st.learnts,
      s.assignLevels (VarID l) = st.btLevel)
  ∧ 0 ≤ st.btLevel

/-- Soundness of an explanation handed to the `analyze` loop at trail
cursor `T`: each produced literal is the opposite of a False literal whose
variable lies on the trail strictly below `T`. -/
def ReasonOK (s : Solver) (T : ℕ) (lits : List ℕ) : Prop :=
  ∀ q ∈ lits, s.assigns (opposite q) = .lfalse
    ∧ ∃ pq : ℕ, pq < T ∧ VarID (s.trail.getD pq 0) = VarID q

/- ====================================================================== -/
/- Theorems. -/
/- ====================================================================== -/

theorem xor_one_mod_two (l : ℕ) : (l ^^^ 1) % 2 = 1 - l % 2 := by
  have h1 : (l ^^^ 1).testBit 0 = ((l.testBit 0) ^^ (Nat.testBit 1 0)) :=
    Nat.testBit_xor ..
  rw [Nat.testBit_zero, Nat.testBit_zero, Nat.testBit_zero] at h1
  rcases Nat.mod_two_eq_zero_or_one l with h | h <;>
    rcases Nat.mod_two_eq_zero_or_one (l ^^^ 1) with h2 | h2 <;>
    rw [h, h2] at h1 ⊢ <;> simp_all

theorem varID_opposite (l : ℕ) : VarID (opposite l) = VarID l := by
  unfold VarID opposite
  rw [Nat.xor_div_two]
  norm_num

theorem opposite_eq (l : ℕ) :
    opposite l = if l % 2 = 0 then l + 1 else l - 1 := by
  have hd : (l ^^^ 1) / 2 = l / 2 := by rw [Nat.xor_div_two]; norm_num
  have hm := xor_one_mod_two l
  have h1 := Nat.div_add_mod (l ^^^ 1) 2
  have h2 := Nat.div_add_mod l 2
  unfold opposite
  split <;> omega

theorem opposite_opposite (l : ℕ) : opposite (opposite l) = l := by
  simp [opposite, Nat.xor_assoc]

theorem opposite_ne (l : ℕ) : opposite l ≠ l := by
  intro h
  have hm := xor_one_mod_two l
  have h2 : (l ^^^ 1) = l := h
  rw [h2] at hm
  omega

theorem opposite_positiveLiteral (v : ℕ) :
    opposite (PositiveLiteral v) = NegativeLiteral v := by
  rw [PositiveLiteral, NegativeLiteral, opposite_eq]
  have h : (v * 2) % 2 = 0 := by omega
  rw [if_pos h]

theorem opposite_negativeLiteral (v : ℕ) :
    opposite (NegativeLiteral v) = PositiveLiteral v := by
  rw [NegativeLiteral, PositiveLiteral, opposite_eq]
  have h : ¬ (v * 2 + 1) % 2 = 0 := by omega
  rw [if_neg h]
  omega

theorem varID_positiveLiteral (v : ℕ) : VarID (PositiveLiteral v) = v := by
  unfold VarID PositiveLiteral
  omega

theorem varID_negativeLiteral (v : ℕ) : VarID (NegativeLiteral v) = v := by
  unfold VarID NegativeLiteral
  omega

theorem opposite_inj {a b : ℕ} (h : opposite a = opposite b) : a = b := by
  have := congrArg opposite h
  rwa [opposite_opposite, opposite_opposite] at this

/-- C4: `enqueue(l, from)` returns `false` exactly when `assigns[l]` is
`False`, in which case (and likewise when `assigns[l]` is `True`, where it
returns `true`) the state is unchanged; when `l` is unassigned it returns
`true`, sets `assigns[l] = True` and `assigns[opposite(l)] = False`, records
the current decision level and the reason `from` for `var(l)`, and appends
`l` to the trail. -/
theorem enqueue_spec (s : Solver) (l : ℕ) (from_ : Option ℕ) :
    ((s.enqueue l from_).2 = false ↔ s.assigns l = .lfalse)
    ∧ (s.assigns l = .lfalse → (s.enqueue l from_).1 = s)
    ∧ (s.assigns l = .ltrue →
        (s.enqueue l from_).1 = s ∧ (s.enqueue l from_).2 = true)
    ∧ (s.assigns l = .lunknown →
        (s.enqueue l from_).2 = true
        ∧ (s.enqueue l from_).1.assigns l = .ltrue
        ∧ (s.enqueue l from_).1.assigns (opposite l) = .lfalse
        ∧ (s.enqueue l from_).1.assignLevels (VarID l) = (s.decisionLevel : ℤ)
        ∧ (s.enqueue l from_).1.assignReasons (VarID l) = from_
        ∧ (s.enqueue l from_).1.trail = s.trail ++ [l]) := by
  unfold Solver.enqueue Solver.LitValue
  have hne : ¬ l = opposite l := fun h => opposite_ne l h.symm
  cases h : s.assigns l <;>
    simp [h, Function.update, hne]

/-- Witness for `enqueue_spec`: enqueueing literal `2` (variable `1`
positive) in a state where it is unassigned sets the expected fields. -/
theorem enqueue_spec_witness :
    (egSolver0.enqueue 2 none).2 = true
    ∧ (egSolver0.enqueue 2 none).1.assigns 2 = .ltrue
    ∧ (egSolver0.enqueue 2 none).1.trail = [2] := by
  refine ⟨?_, ?_, ?_⟩
  · exact ((enqueue_spec egSolver0 2 none).2.2.2 rfl).1
  · exact ((enqueue_spec egSolver0 2 none).2.2.2 rfl).2.1
  · exact ((enqueue_spec egSolver0 2 none).2.2.2 rfl).2.2.2.2.2

theorem computeLBDLoop_eq (levels : ℕ → ℤ) (lits : List ℕ)
    (seen : Finset ℤ) (acc : ℕ) :
    computeLBDLoop levels lits seen acc =
      acc + ((lits.map (fun l => levels (VarID l))).toFinset \ seen).card := by
  induction lits generalizing seen acc with
  | nil => simp [computeLBDLoop]
  | cons lit rest ih =>
    simp only [computeLBDLoop, List.map_cons, List.toFinset_cons]
    split
    · next hmem =>
      rw [ih, Finset.insert_sdiff_of_mem _ hmem]
    · next hmem =>
      rw [ih, Finset.insert_sdiff_of_not_mem _ hmem, Finset.sdiff_insert]
      by_cases hx : levels (VarID lit) ∈
          (rest.map (fun l => levels (VarID l))).toFinset \ seen
      · rw [Finset.insert_eq_self.mpr hx, Finset.card_erase_of_mem hx]
        have hpos := Finset.card_pos.mpr ⟨_, hx⟩
        omega
      · rw [Finset.erase_eq_of_not_mem hx,
          Finset.card_insert_of_not_mem hx]
        omega

/-- C5: `computeLBD` returns the number of distinct decision levels among
the literals' variables, not counting level 0, and that number is at most
the length of the literal list. -/
theorem computeLBD_spec (s : Solver) (literals : List ℕ)
    (_h : ∀ l ∈ literals, 0 ≤ s.assignLevels (VarID l)) :
    s.computeLBD literals =
      ((literals.map (fun l => s.assignLevels (VarID l))).toFinset \
        ({0} : Finset ℤ)).card
    ∧ s.computeLBD literals ≤ literals.length := by
  have he := computeLBDLoop_eq s.assignLevels literals {0} 0
  constructor
  · simpa [Solver.computeLBD] using he
  · calc s.computeLBD literals
        = ((literals.map (fun l => s.assignLevels (VarID l))).toFinset \
            ({0} : Finset ℤ)).card := by simpa [Solver.computeLBD] using he
      _ ≤ (literals.map (fun l => s.assignLevels (VarID l))).toFinset.card :=
          Finset.card_le_card Finset.sdiff_subset
      _ ≤ (literals.map (fun l => s.assignLevels (VarID l))).length :=
          List.toFinset_card_le _
      _ = literals.length := List.length_map ..

/-- Witness for `computeLBD_spec`: literals `2, 4, 6` (variables 1, 2, 3 at
levels 1, 1, 2) have two distinct non-root levels and LBD 2. -/
theorem computeLBD_spec_witness :
    egSolverLBD.computeLBD [2, 4, 6] =
      (([2, 4, 6].map (fun l => egSolverLBD.assignLevels (VarID l))).toFinset \
        ({0} : Finset ℤ)).card
    ∧ egSolverLBD.computeLBD [2, 4, 6] ≤ 3 :=
  computeLBD_spec egSolverLBD [2, 4, 6] (by decide)

/-- C8 counterexample: on `egClauseA` (2 literals, lbd 3, activity 0) and
`egClauseB` (2 literals, lbd 5, activity 1) the `ReduceDB` comparator
returns `true` although the spec's lexicographic order puts `egClauseB`
(higher lbd) first; the comparator even returns `true` in both directions,
so it is not asymmetric and is not any total order. -/
theorem reduceDBLess_not_lexicographic :
    reduceDBLess egClauseA egClauseB = true
    ∧ specLexLess egClauseA egClauseB = false
    ∧ reduceDBLess egClauseB egClauseA = true := by decide

/-- C8 (amended): the comparator passed to the sort in `ReduceDB` is the
plain disjunction of its three tests, with no equality guards: it returns
`true` iff `len(ci) > 2` and `len(cj) == 2`, or `lbd(ci) > lbd(cj)`, or
`activity(ci) < activity(cj)`. It does not implement the spec's
lexicographic order, and it is not asymmetric, so the sorted order of the
learnts slice is not characterized beyond being a permutation. -/
theorem reduceDBLess_spec :
    (∀ ci cj : Clause, (reduceDBLess ci cj = true ↔
        (2 < ci.literals.length ∧ cj.literals.length = 2)
        ∨ cj.lbd < ci.lbd ∨ ci.activity < cj.activity))
    ∧ ∃ ci cj : Clause, reduceDBLess ci cj = true
        ∧ reduceDBLess cj ci = true := by
  constructor
  · intro ci cj
    unfold reduceDBLess
    split
    · next h => simp [h]
    · next h =>
      split
      · next h2 => simp [h, h2]
      · next h2 =>
        split
        · next h3 => simp [h, h2, h3]
        · next h3 => simp [h, h2, h3]
  · exact ⟨egClauseA, egClauseB, by decide, by decide⟩

theorem Unwatch_clauses (s : Solver) (cid w : ℕ) :
    (s.Unwatch cid w).clauses = s.clauses := rfl

theorem deleteClause_clauses_other (s : Solver) {d cid : ℕ} (h : d ≠ cid) :
    (s.deleteClause d).clauses cid = s.clauses cid := by
  unfold Solver.deleteClause
  exact Function.update_noteq (Ne.symm h) _ _

theorem deleteClause_assignReasons (s : Solver) (d : ℕ) :
    (s.deleteClause d).assignReasons = s.assignReasons := rfl

theorem unprotect_clauses_other (s : Solver) {d cid : ℕ} (h : d ≠ cid) :
    (unprotectIfProtected s d).clauses cid = s.clauses cid := by
  unfold unprotectIfProtected
  split
  · exact Function.update_noteq (Ne.symm h) _ _
  · rfl

theorem unprotect_assignReasons (s : Solver) (d : ℕ) :
    (unprotectIfProtected s d).assignReasons = s.assignReasons := by
  unfold unprotectIfProtected
  split <;> rfl

theorem locked_congr {s s' : Solver} (cid : ℕ)
    (hr : s'.assignReasons = s.assignReasons)
    (hc : s'.clauses cid = s.clauses cid) :
    locked s' cid = locked s cid := by
  unfold locked
  rw [hr, hc]

theorem keepCond_congr {s s' : Solver} (cid : ℕ)
    (hr : s'.assignReasons = s.assignReasons)
    (hc : s'.clauses cid = s.clauses cid) :
    KeepCond s' cid ↔ KeepCond s cid := by
  unfold KeepCond
  rw [locked_congr cid hr hc, hc]

theorem reduceLoop_clauses_not_mem :
    ∀ (pending : List ℕ) (s : Solver) (td : ℕ) (cid : ℕ), cid ∉ pending →
      (reduceLoop s pending td).1.clauses cid = s.clauses cid := by
  intro pending
  induction pending with
  | nil => intro s td cid _; rfl
  | cons d rest ih =>
    intro s td cid h
    have hd : d ≠ cid := fun he => h (he ▸ List.mem_cons_self _ _)
    have hrest : cid ∉ rest := fun hm => h (List.mem_cons_of_mem _ hm)
    rw [reduceLoop]
    split
    · rw [ih _ _ _ hrest, deleteClause_clauses_other _ hd]
    · dsimp only
      rw [ih _ _ _ hrest, unprotect_clauses_other _ hd]

theorem reduceLoop_keeps :
    ∀ (pending : List ℕ) (s : Solver) (td : ℕ) (cid : ℕ),
      pending.Nodup → cid ∈ pending → KeepCond s cid →
      cid ∈ (reduceLoop s pending td).2
      ∧ ((reduceLoop s pending td).1.clauses cid).deleted
          = (s.clauses cid).deleted
      ∧ ((reduceLoop s pending td).1.clauses cid).literals
          = (s.clauses cid).literals
      ∧ ((reduceLoop s pending td).1.clauses cid).lbd
          = (s.clauses cid).lbd := by
  intro pending
  induction pending with
  | nil => intro s td cid _ hmem _; cases hmem
  | cons d rest ih =>
    intro s td cid hnd hmem hkeep
    by_cases hd : d = cid
    · subst hd
      have hrest : d ∉ rest := (List.nodup_cons.mp hnd).1
      rw [reduceLoop]
      split
      · next hguard =>
        exfalso
        rcases hkeep with hk | hk | hk | hk
        · have h2 := hguard.2.1
          rw [hk] at h2
          simp at h2
        · have h2 := hguard.2.2.1
          omega
        · have h2 := hguard.2.2.2.1
          omega
        · have h2 := hguard.2.2.2.2
          rw [hk] at h2
          simp at h2
      · dsimp only
        refine ⟨List.mem_cons_self _ _, ?_⟩
        rw [reduceLoop_clauses_not_mem _ _ _ _ hrest]
        unfold unprotectIfProtected
        split
        · dsimp only
          rw [Function.update_same]
          exact ⟨rfl, rfl, rfl⟩
        · exact ⟨rfl, rfl, rfl⟩
    · have hmem' : cid ∈ rest := by
        rcases List.mem_cons.mp hmem with he | hm
        · exact absurd he.symm hd
        · exact hm
      have hnd' : rest.Nodup := (List.nodup_cons.mp hnd).2
      rw [reduceLoop]
      split
      · have hc := deleteClause_clauses_other s hd
        have hkeep' : KeepCond (s.deleteClause d) cid :=
          (keepCond_congr cid (deleteClause_assignReasons s d) hc).mpr hkeep
        have hmain := ih (s.deleteClause d) (td - 1) cid hnd' hmem' hkeep'
        rw [hc] at hmain
        exact hmain
      · dsimp only
        have hc := unprotect_clauses_other s hd
        have hkeep' : KeepCond (unprotectIfProtected s d) cid :=
          (keepCond_congr cid (unprotect_assignReasons s d) hc).mpr hkeep
        have hmain := ih (unprotectIfProtected s d)
          (if (s.clauses d).isProtected then td + 1 else td) cid hnd' hmem' hkeep'
        rw [hc] at hmain
        exact ⟨List.mem_cons_of_mem _ hmain.1, hmain.2⟩

theorem setProtectedIds_assignReasons :
    ∀ (ids : List ℕ) (s : Solver),
      (setProtectedIds s ids).assignReasons = s.assignReasons := by
  intro ids
  induction ids with
  | nil => intro s; rfl
  | cons d rest ih =>
    intro s
    unfold setProtectedIds at ih ⊢
    rw [List.foldl_cons, ih]

theorem setProtectedIds_clauses :
    ∀ (ids : List ℕ) (s : Solver) (cid : ℕ),
      (setProtectedIds s ids).clauses cid = s.clauses cid
      ∨ (setProtectedIds s ids).clauses cid = (s.clauses cid).setProtected := by
  intro ids
  induction ids with
  | nil => intro s cid; exact Or.inl rfl
  | cons d rest ih =>
    intro s cid
    unfold setProtectedIds at ih ⊢
    rw [List.foldl_cons]
    have ih2 :=
      ih { s with clauses := Function.update s.clauses d (s.clauses d).setProtected } cid
    rcases ih2 with h | h <;> rw [h] <;> by_cases hd : d = cid
    · subst hd
      dsimp only
      rw [Function.update_same]
      exact Or.inr rfl
    · dsimp only
      rw [Function.update_noteq (Ne.symm hd)]
      exact Or.inl rfl
    · subst hd
      dsimp only
      rw [Function.update_same]
      exact Or.inr rfl
    · dsimp only
      rw [Function.update_noteq (Ne.symm hd)]
      exact Or.inr rfl

theorem setProtectedIds_keepCond (ids : List ℕ) (s : Solver) (cid : ℕ)
    (hkeep : KeepCond s cid) : KeepCond (setProtectedIds s ids) cid := by
  have hr := setProtectedIds_assignReasons ids s
  rcases setProtectedIds_clauses ids s cid with hc | hc
  · exact (keepCond_congr cid hr hc).mpr hkeep
  · unfold KeepCond at hkeep ⊢
    rw [hc]
    rcases hkeep with hk | hk | hk | hk
    · refine Or.inl ?_
      unfold locked at hk ⊢
      rw [hr, hc]
      exact hk
    · exact Or.inr (Or.inl hk)
    · exact Or.inr (Or.inr (Or.inl hk))
    · exact Or.inr (Or.inr (Or.inr rfl))

/-- C2: a learnt clause that is locked, or has lbd at most 2, or has at
most two literals, or is protected, is never deleted by `ReduceDB`: for any
order the (inconsistent) sort may have produced, such a clause is still in
the learnts list after `ReduceDB`, still undeleted, and its literals are
untouched. -/
theorem reduceDB_preserves (s : Solver) (sorted : List ℕ) (cid : ℕ)
    (hperm : sorted.Perm s.learnts) (hnd : s.learnts.Nodup)
    (hmem : cid ∈ s.learnts) (hkeep : KeepCond s cid)
    (hactive : (s.clauses cid).deleted = false) :
    cid ∈ (s.reduceDBSorted sorted).learnts
    ∧ ((s.reduceDBSorted sorted).clauses cid).deleted = false
    ∧ ((s.reduceDBSorted sorted).clauses cid).literals
        = (s.clauses cid).literals := by
  have hndS : sorted.Nodup := hperm.nodup_iff.mpr hnd
  have hmemS : cid ∈ sorted := hperm.mem_iff.mpr hmem
  unfold Solver.reduceDBSorted
  dsimp only
  set s1 := setProtectedIds s (sorted.drop (sorted.length * 90 / 100)) with hs1
  have hkeep1 : KeepCond s1 cid := setProtectedIds_keepCond _ s cid hkeep
  have hmain := reduceLoop_keeps sorted s1 (sorted.length / 2) cid hndS hmemS hkeep1
  refine ⟨hmain.1, ?_, ?_⟩
  · rw [hmain.2.1]
    rcases setProtectedIds_clauses (sorted.drop (sorted.length * 90 / 100)) s cid
      with hc | hc <;> rw [← hs1] at hc <;> rw [hc]
    · exact hactive
    · exact hactive
  · rw [hmain.2.2.1]
    rcases setProtectedIds_clauses (sorted.drop (sorted.length * 90 / 100)) s cid
      with hc | hc <;> rw [← hs1] at hc <;> rw [hc]
    · rfl

/-- Witness for `reduceDB_preserves`: the single two-literal learnt clause
of `egSolverRD` survives `ReduceDB`. -/
theorem reduceDB_preserves_witness :
    0 ∈ (egSolverRD.reduceDBSorted [0]).learnts
    ∧ ((egSolverRD.reduceDBSorted [0]).clauses 0).deleted = false
    ∧ ((egSolverRD.reduceDBSorted [0]).clauses 0).literals
        = (egSolverRD.clauses 0).literals :=
  reduceDB_preserves egSolverRD [0] 0 (by decide) (by decide) (by decide)
    (Or.inr (Or.inr (Or.inl (by decide)))) (by decide)

theorem mem_drop_one_range (n i : ℕ) :
    i ∈ (List.range n).drop 1 ↔ 1 ≤ i ∧ i < n := by
  rcases n with _ | m
  · simp
  · rw [List.range_succ_eq_map]
    simp [List.mem_map]
    constructor
    · rintro ⟨a, ha, rfl⟩; omega
    · intro ⟨h1, h2⟩; exact ⟨i - 1, by omega, by omega⟩

theorem scanMax_spec (s : Solver) (L : List ℕ) (idxs : List ℕ) :
    ∀ (m w : ℤ) (r : ℤ × ℤ),
      r = idxs.foldl (fun (p : ℤ × ℤ) i =>
          if p.1 < s.assignLevels (VarID (L.getD i 0)) then
            (s.assignLevels (VarID (L.getD i 0)), (i : ℤ))
          else p) (m, w) →
      m ≤ r.1 ∧ (∀ i ∈ idxs, s.assignLevels (VarID (L.getD i 0)) ≤ r.1)
      ∧ (r = (m, w) ∨ ∃ j ∈ idxs, r.2 = (j : ℤ)
          ∧ r.1 = s.assignLevels (VarID (L.getD j 0))) := by
  induction idxs with
  | nil =>
    intro m w r hr
    rw [List.foldl_nil] at hr
    subst hr
    exact ⟨le_refl _, by simp, Or.inl rfl⟩
  | cons i rest ih =>
    intro m w r hr
    rw [List.foldl_cons] at hr
    by_cases hstep : m < s.assignLevels (VarID (L.getD i 0))
    · rw [if_pos hstep] at hr
      obtain ⟨hm, hall, hlast⟩ := ih _ _ r hr
      refine ⟨le_of_lt (lt_of_lt_of_le hstep hm), ?_, ?_⟩
      · intro i' hi'
        rcases List.mem_cons.mp hi' with he | hmm
        · subst he; exact hm
        · exact hall i' hmm
      · rcases hlast with he | ⟨j, hj, hj2, hj1⟩
        · exact Or.inr ⟨i, List.mem_cons_self _ _, by rw [he], by rw [he]⟩
        · exact Or.inr ⟨j, List.mem_cons_of_mem _ hj, hj2, hj1⟩
    · rw [if_neg hstep] at hr
      obtain ⟨hm, hall, hlast⟩ := ih _ _ r hr
      refine ⟨hm, ?_, ?_⟩
      · intro i' hi'
        rcases List.mem_cons.mp hi' with he | hmm
        · subst he
          exact le_trans (le_of_not_lt hstep) hm
        · exact hall i' hmm
      · rcases hlast with he | ⟨j, hj, hj2, hj1⟩
        · exact Or.inl he
        · exact Or.inr ⟨j, List.mem_cons_of_mem _ hj, hj2, hj1⟩

theorem set_swap_perm (l : List ℕ) (i j : ℕ) (hi : i < l.length)
    (hj : j < l.length) :
    ((l.set i (l.getD j 0)).set j (l.getD i 0)).Perm l := by
  rw [List.perm_iff_count]
  intro x
  have hgi : l.getD i 0 = l[i] := List.getD_eq_getElem l 0 hi
  have hgj : l.getD j 0 = l[j] := List.getD_eq_getElem l 0 hj
  have hj1 : j < (l.set i (l.getD j 0)).length := by
    rw [List.length_set]; exact hj
  have hpi : l[i] = x → 1 ≤ List.count x l := by
    intro hix
    have hmem : x ∈ l := hix ▸ List.getElem_mem hi
    have := List.count_pos_iff.mpr hmem
    omega
  have hpj : l[j] = x → 1 ≤ List.count x l := by
    intro hjx
    have hmem : x ∈ l := hjx ▸ List.getElem_mem hj
    have := List.count_pos_iff.mpr hmem
    omega
  rw [List.count_set _ _ _ _ hj1, List.count_set _ _ _ _ hi]
  by_cases hij : i = j
  · subst hij
    rw [List.getElem_set_self hj1, hgi]
    simp only [beq_iff_eq]
    by_cases hx : l[i] = x
    · have hc := hpi hx
      simp [hx]
      omega
    · simp [hx]
  · rw [List.getElem_set_ne hij hj1]
    simp only [hgi, hgj, beq_iff_eq]
    by_cases hx1 : l[i] = x <;> by_cases hx2 : l[j] = x
    · have hc := hpi hx1
      simp [hx1, hx2]
      omega
    · have hc := hpi hx1
      simp [hx1, hx2]
      omega
    · have hc := hpj hx2
      simp [hx1, hx2]
    · simp [hx1, hx2]

/-- C7: for a learnt clause of at least two literals whose non-first
literals are all assigned (as produced by `analyze`) and whose variables
are pairwise distinct, `NewClause` with `learnt = true` allocates a clause
whose literal list is a permutation of the input, keeps the input's first
literal in position 0, places in position 1 a literal from an input
position in `1..len-1` of maximal assignment level among those positions,
and registers the fresh clause exactly once in the watcher list of
`opposite(literals[0])` with guard `literals[1]` and exactly once in the
watcher list of `opposite(literals[1])` with guard `literals[0]`. -/
theorem newClauseLearnt_spec (s : Solver) (L : List ℕ)
    (hlen : 2 ≤ L.length)
    (hassigned : ∀ i, i < L.length → 1 ≤ i →
      0 ≤ s.assignLevels (VarID (L.getD i 0)))
    (hvars : (L.map VarID).Nodup)
    (hfresh : ∀ w : ℕ, ∀ x ∈ s.watchers w, x.clause < s.numClauses) :
    (NewClauseLearnt s L).2.1 = some s.numClauses
    ∧ ((NewClauseLearnt s L).1.clauses s.numClauses).literals.Perm L
    ∧ ((NewClauseLearnt s L).1.clauses s.numClauses).literals.getD 0 0
        = L.getD 0 0
    ∧ (∃ j, 1 ≤ j ∧ j < L.length
        ∧ ((NewClauseLearnt s L).1.clauses s.numClauses).literals.getD 1 0
            = L.getD j 0
        ∧ ∀ i, i < L.length → 1 ≤ i →
            s.assignLevels (VarID (L.getD i 0))
              ≤ s.assignLevels (VarID (L.getD j 0)))
    ∧ (((NewClauseLearnt s L).1.watchers
          (opposite
            (((NewClauseLearnt s L).1.clauses s.numClauses).literals.getD 0 0))).filter
        (fun x => x.clause == s.numClauses))
        = [⟨s.numClauses,
            ((NewClauseLearnt s L).1.clauses s.numClauses).literals.getD 1 0⟩]
    ∧ (((NewClauseLearnt s L).1.watchers
          (opposite
            (((NewClauseLearnt s L).1.clauses s.numClauses).literals.getD 1 0))).filter
        (fun x => x.clause == s.numClauses))
        = [⟨s.numClauses,
            ((NewClauseLearnt s L).1.clauses s.numClauses).literals.getD 0 0⟩] := by
  have h0 : ¬ L.length = 0 := by omega
  have h1 : ¬ L.length = 1 := by omega
  obtain ⟨hm, hall, hlast⟩ :=
    scanMax_spec s L ((List.range L.length).drop 1) (-1) (-1) _ rfl
  have hmem1 : (1 : ℕ) ∈ (List.range L.length).drop 1 :=
    (mem_drop_one_range _ _).mpr ⟨le_refl 1, by omega⟩
  have hpos : (0 : ℤ) ≤ (((List.range L.length).drop 1).foldl
      (fun (p : ℤ × ℤ) i =>
        if p.1 < s.assignLevels (VarID (L.getD i 0)) then
          (s.assignLevels (VarID (L.getD i 0)), (i : ℤ))
        else p) (-1, -1)).1 :=
    le_trans (hassigned 1 (by omega) (le_refl 1)) (hall 1 hmem1)
  rcases hlast with heq | ⟨j, hjmem, hj2, hj1⟩
  · rw [heq] at hpos
    norm_num at hpos
  obtain ⟨hj_ge, hj_lt⟩ := (mem_drop_one_range _ _).mp hjmem
  have hwl : (((List.range L.length).drop 1).foldl
      (fun (p : ℤ × ℤ) i =>
        if p.1 < s.assignLevels (VarID (L.getD i 0)) then
          (s.assignLevels (VarID (L.getD i 0)), (i : ℤ))
        else p) (-1, -1)).2.toNat = j := by
    rw [hj2]
    omega
  have hlensetj : (L.set j (L.getD 1 0)).length = L.length := List.length_set ..
  have hL1get : ((L.set j (L.getD 1 0)).set 1 (L.getD j 0)).getD 1 0
      = L.getD j 0 := by
    have hb : 1 < ((L.set j (L.getD 1 0)).set 1 (L.getD j 0)).length := by
      rw [List.length_set, hlensetj]; omega
    rw [List.getD_eq_getElem _ 0 hb, List.getElem_set_self]
  have hL0get : ((L.set j (L.getD 1 0)).set 1 (L.getD j 0)).getD 0 0
      = L.getD 0 0 := by
    have hb : 0 < ((L.set j (L.getD 1 0)).set 1 (L.getD j 0)).length := by
      rw [List.length_set, hlensetj]; omega
    have hb2 : 0 < L.length := by omega
    rw [List.getD_eq_getElem _ 0 hb,
      List.getElem_set_ne (by omega : (1 : ℕ) ≠ 0),
      List.getElem_set_ne (by omega : j ≠ 0), List.getD_eq_getElem L 0 hb2]
  have hperm : ((L.set j (L.getD 1 0)).set 1 (L.getD j 0)).Perm L :=
    set_swap_perm L j 1 hj_lt (by omega)
  have hvarne : VarID (L.getD 0 0) ≠ VarID (L.getD j 0) := by
    have hb0 : 0 < L.length := by omega
    have hlm : (L.map VarID).length = L.length := List.length_map ..
    rw [List.getD_eq_getElem L 0 hb0, List.getD_eq_getElem L 0 hj_lt]
    intro he
    have hm0 : (L.map VarID).get ⟨0, by rw [hlm]; omega⟩
        = (L.map VarID).get ⟨j, by rw [hlm]; omega⟩ := by
      rw [List.get_eq_getElem, List.get_eq_getElem, List.getElem_map,
        List.getElem_map]
      exact he
    have hfin := (hvars.get_inj_iff).mp hm0
    have hval : (0 : ℕ) = j := congrArg Fin.val hfin
    omega
  have hlitne : L.getD 0 0 ≠ L.getD j 0 := fun he => hvarne (by rw [he])
  have hoppne : opposite (L.getD 0 0) ≠ opposite (L.getD j 0) :=
    fun he => hlitne (opposite_inj he)
  unfold NewClauseLearnt Solver.Watch
  rw [if_neg h0, if_neg h1]
  dsimp only
  rw [hwl]
  refine ⟨rfl, ?_, ?_, ?_, ?_, ?_⟩
  · rw [Function.update_same]
    exact hperm
  · rw [Function.update_same]
    exact hL0get
  · rw [Function.update_same]
    refine ⟨j, hj_ge, hj_lt, hL1get, ?_⟩
    intro i hi h1i
    have := hall i ((mem_drop_one_range _ _).mpr ⟨h1i, hi⟩)
    rw [hj1] at this
    exact this
  · rw [Function.update_same, hL0get, hL1get,
      Function.update_noteq hoppne, Function.update_same, List.filter_append]
    have hnil : (s.watchers (opposite (L.getD 0 0))).filter
        (fun x => x.clause == s.numClauses) = [] := by
      rw [List.filter_eq_nil_iff]
      intro a ha
      have := hfresh _ a ha
      simp only [beq_iff_eq]
      omega
    rw [hnil]
    simp
  · rw [Function.update_same, hL0get, hL1get, Function.update_same,
      Function.update_noteq (Ne.symm hoppne), List.filter_append]
    have hnil : (s.watchers (opposite (L.getD j 0))).filter
        (fun x => x.clause == s.numClauses) = [] := by
      rw [List.filter_eq_nil_iff]
      intro a ha
      have := hfresh _ a ha
      simp only [beq_iff_eq]
      omega
    rw [hnil]
    simp


/-- Witness for `newClauseLearnt_spec` on `egSolverNC` and the literal list
`[0, 2, 4]` (variables 0, 1 and 2, with positions 1 and 2 assigned at
levels 1 and 2). -/
theorem newClauseLearnt_spec_witness :
    (NewClauseLearnt egSolverNC [0, 2, 4]).2.1 = some 0
    ∧ ((NewClauseLearnt egSolverNC [0, 2, 4]).1.clauses 0).literals.Perm
        [0, 2, 4]
    ∧ ((NewClauseLearnt egSolverNC [0, 2, 4]).1.clauses 0).literals.getD 0 0
        = 0 := by
  have h := newClauseLearnt_spec egSolverNC [0, 2, 4] (by decide) (by decide)
    (by decide) (fun w x hx => absurd hx (List.not_mem_nil x))
  exact ⟨h.1, h.2.1, h.2.2.1⟩


theorem heapBest_none (scores : ℕ → ℚ) :
    ∀ l : List ℕ, heapBest scores l = none → l = [] := by
  intro l
  cases l with
  | nil => intro _; rfl
  | cons a rest =>
    intro h
    cases hb : heapBest scores rest with
    | none =>
      simp only [heapBest, hb] at h
      cases h
    | some w =>
      simp only [heapBest, hb] at h
      split at h <;> cases h

theorem heapBest_mem (scores : ℕ → ℚ) :
    ∀ (l : List ℕ) (v : ℕ), heapBest scores l = some v → v ∈ l := by
  intro l
  induction l with
  | nil => intro v h; cases h
  | cons a rest ih =>
    intro v h
    cases hb : heapBest scores rest with
    | none =>
      simp only [heapBest, hb] at h
      cases h
      exact List.mem_cons_self _ _
    | some w =>
      simp only [heapBest, hb] at h
      split at h <;> cases h
      · exact List.mem_cons_self _ _
      · exact List.mem_cons_of_mem _ (ih _ hb)

theorem heapBest_best (scores : ℕ → ℚ) :
    ∀ (l : List ℕ) (v : ℕ), heapBest scores l = some v →
      ∀ u ∈ l, u ≠ v →
        scores u < scores v ∨ (scores u = scores v ∧ v < u) := by
  intro l
  induction l with
  | nil => intro v _ u hu; cases hu
  | cons a rest ih =>
    intro v h u hu hne
    cases hb : heapBest scores rest with
    | none =>
      simp only [heapBest, hb] at h
      cases h
      have hrest : rest = [] := heapBest_none scores rest hb
      subst hrest
      rcases List.mem_cons.mp hu with he | hm
      · exact absurd he hne
      · cases hm
    | some w =>
      simp only [heapBest, hb] at h
      split at h
      · next hcond =>
        cases h
        rcases List.mem_cons.mp hu with he | hm
        · exact absurd he hne
        · by_cases huw : u = w
          · subst huw
            exact hcond
          · rcases ih w hb u hm huw with h1 | ⟨h1, h2⟩
            · rcases hcond with h3 | ⟨h3, h4⟩
              · exact Or.inl (lt_trans h1 h3)
              · exact Or.inl (h3 ▸ h1)
            · rcases hcond with h3 | ⟨h3, h4⟩
              · exact Or.inl (h1 ▸ h3)
              · exact Or.inr ⟨h1.trans h3, lt_trans h4 h2⟩
      · next hcond =>
        cases h
        rcases List.mem_cons.mp hu with he | hm
        · subst he
          push_neg at hcond
          rcases lt_or_eq_of_le hcond.1 with h1 | h1
          · exact Or.inl h1
          · have h2 := hcond.2 h1.symm
            have h3 : v ≠ u := Ne.symm hne
            exact Or.inr ⟨h1, lt_of_le_of_ne h2 h3⟩
        · exact ih v hb u hm hne

theorem nextDecisionLoop_spec (s : Solver) :
    ∀ (fuel : ℕ) (vo : VarOrder),
      vo.heap.Nodup → vo.heap.length ≤ fuel →
      (∃ v ∈ vo.heap, s.VarValue v = .lunknown) →
      ∃ v, v ∈ vo.heap ∧ s.VarValue v = .lunknown
        ∧ (∀ u ∈ vo.heap, s.VarValue u = .lunknown → u ≠ v →
            vo.scores u < vo.scores v ∨ (vo.scores u = vo.scores v ∧ v < u))
        ∧ ∃ heap', nextDecisionLoop s vo fuel
            = some (phaseLiteral vo v, { vo with heap := heap' }) := by
  intro fuel
  induction fuel with
  | zero =>
    intro vo hnd hlen hex
    obtain ⟨v, hv, _⟩ := hex
    rw [Nat.le_zero, List.length_eq_zero] at hlen
    rw [hlen] at hv
    cases hv
  | succ fuel ih =>
    intro vo hnd hlen hex
    obtain ⟨v0, hv0, hv0u⟩ := hex
    cases hb : heapBest vo.scores vo.heap with
    | none =>
      have hnil := heapBest_none vo.scores vo.heap hb
      rw [hnil] at hv0
      cases hv0
    | some b =>
      have hbmem := heapBest_mem vo.scores vo.heap b hb
      have hbbest := heapBest_best vo.scores vo.heap b hb
      by_cases hbu : s.VarValue b = .lunknown
      · refine ⟨b, hbmem, hbu, ?_, ?_⟩
        · intro u hu _ hne
          exact hbbest u hu hne
        · refine ⟨vo.heap.erase b, ?_⟩
          simp only [nextDecisionLoop, heapPop, hb]
          rw [if_neg (by simp [hbu])]
      · have hrestnd : (vo.heap.erase b).Nodup := hnd.erase b
        have hrestlen : (vo.heap.erase b).length ≤ fuel := by
          rw [List.length_erase_of_mem hbmem]
          omega
        have hrest_ex : ∃ v ∈ vo.heap.erase b, s.VarValue v = .lunknown := by
          refine ⟨v0, ?_, hv0u⟩
          rw [List.mem_erase_of_ne ?_]
          · exact hv0
          · intro he
            rw [he] at hv0u
            exact hbu hv0u
        obtain ⟨v, hv, hvu, hvbest, heap', hloop⟩ :=
          ih { vo with heap := vo.heap.erase b } hrestnd hrestlen hrest_ex
        refine ⟨v, List.mem_of_mem_erase hv, hvu, ?_, ?_⟩
        · intro u hu huu hne
          by_cases hub : u = b
          · rw [hub] at huu
            exact absurd huu hbu
          · exact hvbest u ((List.mem_erase_of_ne hub).mpr hu) huu hne
        · refine ⟨heap', ?_⟩
          simp only [nextDecisionLoop, heapPop, hb]
          rw [if_pos hbu]
          exact hloop

/-- C6: on a heap with no duplicate entries containing at least one
variable whose value is `Unknown`, `NextDecision` skips the assigned
variables and returns a literal of the unassigned variable of maximal
score, ties broken by the lower variable id, chosen by its saved phase:
the positive literal for phase `True`, the negative literal for `False`,
and the positive literal for the `Unknown` default. -/
theorem nextDecision_spec (s : Solver) (vo : VarOrder)
    (hnd : vo.heap.Nodup)
    (hex : ∃ v ∈ vo.heap, s.VarValue v = .lunknown) :
    ∃ v, v ∈ vo.heap ∧ s.VarValue v = .lunknown
      ∧ (∀ u ∈ vo.heap, s.VarValue u = .lunknown → u ≠ v →
          vo.scores u < vo.scores v ∨ (vo.scores u = vo.scores v ∧ v < u))
      ∧ ∃ heap', NextDecision vo s
          = some ((if vo.phases v = .ltrue then PositiveLiteral v
              else if vo.phases v = .lfalse then NegativeLiteral v
              else PositiveLiteral v), { vo with heap := heap' }) := by
  obtain ⟨v, hv, hvu, hbest, heap', hloop⟩ :=
    nextDecisionLoop_spec s vo.heap.length vo hnd (le_refl _) hex
  refine ⟨v, hv, hvu, hbest, heap', ?_⟩
  rw [NextDecision, hloop]
  cases hph : vo.phases v <;> simp [phaseLiteral, hph]

/-- Witness for `nextDecision_spec` on `egSolverND`: variable 0 (score 5)
is assigned and skipped; variable 1 (score 3, saved phase `False`) is the
best unassigned variable and its negative literal `3` is returned. -/
theorem nextDecision_spec_witness :
    ∃ v, v ∈ egSolverND.order.heap
      ∧ egSolverND.VarValue v = .lunknown
      ∧ (∀ u ∈ egSolverND.order.heap, egSolverND.VarValue u = .lunknown →
          u ≠ v → egSolverND.order.scores u < egSolverND.order.scores v
            ∨ (egSolverND.order.scores u = egSolverND.order.scores v ∧ v < u))
      ∧ ∃ heap', NextDecision egSolverND.order egSolverND
          = some ((if egSolverND.order.phases v = .ltrue then PositiveLiteral v
              else if egSolverND.order.phases v = .lfalse then
                NegativeLiteral v
              else PositiveLiteral v),
            { egSolverND.order with heap := heap' }) :=
  nextDecision_spec egSolverND egSolverND.order (by decide)
    ⟨1, by decide, by decide⟩


theorem two_pow_pos' (k : ℕ) : 0 < 2 ^ k := Nat.pos_pow_of_pos k (by omega)

theorem resize_spec {T : Type} [Inhabited T] (q : Queue T) (hinv : q.Inv)
    (hfull : q.size = q.ring.length) :
    q.resize.Inv ∧ q.resize.toList = q.toList
    ∧ q.resize.size = q.size ∧ q.resize.ring.length = 2 * q.ring.length := by
  obtain ⟨k, hlen, hmask, hstart, hsize, hend⟩ := hinv
  have hpow : 2 * q.ring.length = 2 ^ (k + 1) := by rw [hlen, pow_succ]; ring
  have hkpos : 0 < 2 ^ k := two_pow_pos' k
  have hk1 : 2 ^ k < 2 ^ (k + 1) := by rw [pow_succ]; omega
  have hlpos : 0 < q.ring.length := by omega
  unfold Queue.resize
  split
  · next h0 =>
    refine ⟨⟨k + 1, ?_, ?_, ?_, ?_, ?_⟩, ?_, rfl, ?_⟩ <;> dsimp only
    · rw [List.length_append, List.length_replicate]
      omega
    · rw [hpow]
    · rw [List.length_append, List.length_replicate, h0]
      omega
    · rw [List.length_append, List.length_replicate]
      omega
    · rw [List.length_append, List.length_replicate, h0, Nat.zero_add,
        hfull]
      have : q.ring.length + q.ring.length = 2 ^ (k + 1) := by omega
      rw [this, Nat.mod_eq_of_lt (by omega)]
    · unfold Queue.toList
      dsimp only
      apply List.map_congr_left
      intro i hi
      rw [List.mem_range] at hi
      have hilen : i < q.ring.length := by omega
      have hi1 : (q.start + i) &&& (2 * q.ring.length - 1) = i := by
        rw [hpow, Nat.and_pow_two_sub_one_eq_mod, h0, Nat.zero_add,
          Nat.mod_eq_of_lt (by omega)]
      have hi2 : (q.start + i) &&& q.mask = i := by
        rw [hmask, Nat.and_pow_two_sub_one_eq_mod, h0, Nat.zero_add,
          Nat.mod_eq_of_lt (by omega)]
      rw [hi1, hi2]
      exact List.getD_append _ _ _ i hilen
    · rw [List.length_append, List.length_replicate]
      omega
  · next h0 =>
    have hendst : q.end_ = q.start := by
      rw [hend, hfull, Nat.add_mod_right, Nat.mod_eq_of_lt hstart]
    have hltake : (q.ring.take q.end_).length = q.start := by
      rw [List.length_take, hendst]
      omega
    have hldrop : (q.ring.drop q.start).length = q.ring.length - q.start :=
      List.length_drop ..
    have hlrepl : 2 * q.ring.length - (q.ring.length - q.start) - q.end_
        = q.ring.length := by
      rw [hendst]
      omega
    have hlenA : (q.ring.drop q.start ++ q.ring.take q.end_).length
        = q.ring.length := by
      rw [List.length_append, hldrop, hltake]
      omega
    have hlen' : (q.ring.drop q.start ++ q.ring.take q.end_ ++
        List.replicate (2 * q.ring.length - (q.ring.length - q.start)
          - q.end_) default).length = 2 * q.ring.length := by
      rw [List.length_append, List.length_replicate, hlenA, hlrepl]
      omega
    refine ⟨⟨k + 1, ?_, ?_, ?_, ?_, ?_⟩, ?_, rfl, ?_⟩ <;> dsimp only
    · rw [hlen']
      omega
    · rw [hpow]
    · rw [hlen']
      omega
    · rw [hlen']
      omega
    · rw [hlen', Nat.zero_add, hfull, hpow, Nat.mod_eq_of_lt (by omega)]
    · unfold Queue.toList
      dsimp only
      apply List.map_congr_left
      intro i hi
      rw [List.mem_range] at hi
      have hilen : i < q.ring.length := by omega
      have hi1 : (0 + i) &&& (2 * q.ring.length - 1) = i := by
        rw [hpow, Nat.and_pow_two_sub_one_eq_mod, Nat.zero_add,
          Nat.mod_eq_of_lt (by omega)]
      have hi2 : (q.start + i) &&& q.mask = (q.start + i) % q.ring.length := by
        rw [hmask, Nat.and_pow_two_sub_one_eq_mod, hlen]
      rw [hi1, hi2]
      rw [List.getD_append _ _ _ i (by rw [hlenA]; omega)]
      by_cases hcase : q.start + i < q.ring.length
      · have hic : i < (q.ring.drop q.start).length := by
          rw [hldrop]; omega
        rw [List.getD_append _ _ _ i (by rw [hldrop]; omega),
          Nat.mod_eq_of_lt hcase]
        rw [List.getD_eq_getElem _ _ hic, List.getElem_drop,
          List.getD_eq_getElem _ _ hcase]
      · have hmod : (q.start + i) % q.ring.length
            = q.start + i - q.ring.length := by
          rw [Nat.mod_eq_sub_mod (by omega : q.ring.length ≤ q.start + i),
            Nat.mod_eq_of_lt (by omega)]
        rw [List.getD_append_right _ _ _ i (by rw [hldrop]; omega)]
        have hidx : i - (q.ring.drop q.start).length
            = q.start + i - q.ring.length := by
          rw [hldrop]; omega
        rw [hidx]
        have hb1 : q.start + i - q.ring.length
            < (q.ring.take q.end_).length := by rw [hltake]; omega
        rw [List.getD_eq_getElem _ _ hb1, List.getElem_take, hmod,
          List.getD_eq_getElem _ _ (by omega : q.start + i - q.ring.length
            < q.ring.length)]
    · rw [hlen']


theorem pushCore_spec {T : Type} [Inhabited T] (q : Queue T) (x : T)
    (hinv : q.Inv) (hlt : q.size < q.ring.length) :
    Queue.Inv { q with ring := q.ring.set q.end_ x
                       end_ := (q.end_ + 1) &&& q.mask
                       size := q.size + 1 }
    ∧ Queue.toList { q with ring := q.ring.set q.end_ x
                            end_ := (q.end_ + 1) &&& q.mask
                            size := q.size + 1 }
        = q.toList ++ [x] := by
  obtain ⟨k, hlen, hmask, hstart, hsize, hend⟩ := hinv
  have hkpos : 0 < 2 ^ k := two_pow_pos' k
  have hlpos : 0 < q.ring.length := by omega
  have hendlt : q.end_ < q.ring.length := by
    rw [hend]
    exact Nat.mod_lt _ hlpos
  constructor
  · refine ⟨k, ?_, hmask, ?_, ?_, ?_⟩ <;> dsimp only
    · rw [List.length_set]
      exact hlen
    · rw [List.length_set]
      exact hstart
    · rw [List.length_set]
      omega
    · rw [List.length_set, hmask, Nat.and_pow_two_sub_one_eq_mod, ← hlen,
        hend, Nat.mod_add_mod]
      congr 1
  · unfold Queue.toList
    dsimp only
    rw [List.range_succ, List.map_append]
    congr 1
    · apply List.map_congr_left
      intro i hi
      rw [List.mem_range] at hi
      have hidx : (q.start + i) &&& q.mask
          = (q.start + i) % q.ring.length := by
        rw [hmask, Nat.and_pow_two_sub_one_eq_mod, hlen]
      have hne : (q.start + i) % q.ring.length ≠ q.end_ := by
        rw [hend]
        intro he
        have hdvd : q.ring.length ∣ (q.start + q.size) - (q.start + i) :=
          (Nat.modEq_iff_dvd' (by omega)).mp he
        have heq : q.start + q.size - (q.start + i) = q.size - i := by omega
        rw [heq] at hdvd
        have := Nat.le_of_dvd (by omega) hdvd
        omega
      have hblt : (q.start + i) % q.ring.length < q.ring.length :=
        Nat.mod_lt _ hlpos
      have hblt2 : (q.start + i) % q.ring.length
          < (q.ring.set q.end_ x).length := by
        rw [List.length_set]
        exact hblt
      rw [hidx, List.getD_eq_getElem _ _ hblt2,
        List.getD_eq_getElem _ _ hblt, List.getElem_set_ne (Ne.symm hne)]
    · have hidx : (q.start + q.size) &&& q.mask = q.end_ := by
        rw [hmask, Nat.and_pow_two_sub_one_eq_mod, ← hlen, hend]
      have hb : q.end_ < (q.ring.set q.end_ x).length := by
        rw [List.length_set]
        omega
      rw [List.map_cons, List.map_nil, hidx,
        List.getD_eq_getElem _ _ hb, List.getElem_set_self]

theorem push_spec {T : Type} [Inhabited T] (q : Queue T) (x : T)
    (hinv : q.Inv) :
    (q.Push x).Inv ∧ (q.Push x).toList = q.toList ++ [x]
    ∧ (q.Push x).size = q.size + 1 := by
  unfold Queue.Push
  dsimp only
  split
  · next hfull =>
    obtain ⟨hinv', htl, hsz, hrl⟩ := resize_spec q hinv hfull
    have hlpos : 0 < q.ring.length := by
      obtain ⟨k, hlen, _⟩ := hinv
      have := two_pow_pos' k
      omega
    have hlt : q.resize.size < q.resize.ring.length := by
      rw [hsz, hrl, hfull]
      omega
    obtain ⟨hi2, ht2⟩ := pushCore_spec q.resize x hinv' hlt
    refine ⟨hi2, ?_, ?_⟩
    · rw [ht2, htl]
    · dsimp only
      omega
  · next hnotfull =>
    have hlt : q.size < q.ring.length := by
      obtain ⟨k, _, _, _, hsize, _⟩ := hinv
      omega
    obtain ⟨hi2, ht2⟩ := pushCore_spec q x hinv hlt
    exact ⟨hi2, ht2, rfl⟩

theorem pop_spec {T : Type} [Inhabited T] (q : Queue T) (hinv : q.Inv)
    (hne : q.size ≠ 0) :
    q.Pop.2.Inv ∧ q.Pop.1 = q.toList.headI
    ∧ q.Pop.2.toList = q.toList.tail ∧ q.Pop.2.size = q.size - 1 := by
  obtain ⟨k, hlen, hmask, hstart, hsize, hend⟩ := hinv
  have hkpos : 0 < 2 ^ k := two_pow_pos' k
  have hlpos : 0 < q.ring.length := by omega
  unfold Queue.Pop
  rw [if_neg hne]
  dsimp only
  have hstartmask : (q.start + 1) &&& q.mask
      = (q.start + 1) % q.ring.length := by
    rw [hmask, Nat.and_pow_two_sub_one_eq_mod, hlen]
  obtain ⟨m, hm⟩ : ∃ m, q.size = m + 1 := ⟨q.size - 1, by omega⟩
  refine ⟨⟨k, hlen, hmask, ?_, ?_, ?_⟩, ?_, ?_, rfl⟩
  · dsimp only
    rw [hstartmask]
    exact Nat.mod_lt _ hlpos
  · dsimp only
    omega
  · dsimp only
    rw [hstartmask, Nat.mod_add_mod, hend]
    congr 1
    omega
  · unfold Queue.toList
    rw [hm, List.range_succ_eq_map, List.map_cons]
    show q.ring.getD q.start default
        = q.ring.getD ((q.start + 0) &&& q.mask) default
    rw [Nat.add_zero, hmask, Nat.and_pow_two_sub_one_eq_mod,
      ← hlen, Nat.mod_eq_of_lt hstart]
  · unfold Queue.toList
    dsimp only
    rw [hm, Nat.add_sub_cancel, List.range_succ_eq_map, List.map_cons,
      List.tail_cons, List.map_map]
    apply List.map_congr_left
    intro i hi
    rw [List.mem_range] at hi
    simp only [Function.comp_apply]
    rw [hstartmask, hmask, Nat.and_pow_two_sub_one_eq_mod,
      Nat.and_pow_two_sub_one_eq_mod, ← hlen, Nat.mod_add_mod]
    have hidx : q.start + 1 + i = q.start + i.succ := by omega
    rw [hidx]

/-- C10: the ring-buffer `Queue` is an exact FIFO. For any queue satisfying
the structural invariant (as `NewQueue` produces) and any sequence of
pushes and pops in which each pop finds a non-empty queue, the popped
values are exactly those of the reference list queue, the final contents
and element count agree with the reference (so `Size` is always the number
of pushes minus the number of pops), and the invariant is maintained —
across all resizes, including those starting at a nonzero ring position
with wrapped contents. -/
theorem queue_fifo {T : Type} [Inhabited T] (ops : List (QOp T)) :
    ∀ q : Queue T, q.Inv → validOps q.toList ops = true →
      (runOps q ops).2 = (runModel q.toList ops).2
      ∧ (runOps q ops).1.toList = (runModel q.toList ops).1
      ∧ (runOps q ops).1.size = (runModel q.toList ops).1.length
      ∧ (runOps q ops).1.Inv := by
  induction ops with
  | nil =>
    intro q hinv _
    refine ⟨rfl, rfl, ?_, hinv⟩
    unfold Queue.toList runOps runModel
    rw [List.length_map, List.length_range]
  | cons op rest ih =>
    intro q hinv hvalid
    cases op with
    | push x =>
      obtain ⟨hinv', htl, _⟩ := push_spec q x hinv
      have hvalid' : validOps (q.Push x).toList rest = true := by
        rw [htl]
        exact hvalid
      obtain ⟨h1, h2, h3, h4⟩ := ih (q.Push x) hinv' hvalid'
      rw [htl] at h1 h2 h3
      exact ⟨h1, h2, h3, h4⟩
    | pop =>
      rw [validOps, Bool.and_eq_true] at hvalid
      have hsz : q.size ≠ 0 := by
        intro h0
        have : q.toList = [] := by
          unfold Queue.toList
          rw [h0]
          rfl
        rw [this] at hvalid
        simp [List.isEmpty] at hvalid
      obtain ⟨hinv', hhead, htail, _⟩ := pop_spec q hinv hsz
      obtain ⟨h1, h2, h3, h4⟩ := ih q.Pop.2 hinv' (by rw [htail]; exact hvalid.2)
      rw [htail] at h1 h2 h3
      refine ⟨?_, h2, h3, h4⟩
      show q.Pop.1 :: (runOps q.Pop.2 rest).2 = _
      rw [hhead, h1]
      rfl


/-- Witness for `queue_fifo`: running `egQueueOps` on a fresh two-slot
queue pops `10, 20, 30, 40` in push order, resizing with a wrapped ring in
between. -/
theorem queue_fifo_witness :
    (runOps (NewQueue ℕ 1) egQueueOps).2
      = (runModel (NewQueue ℕ 1).toList egQueueOps).2
    ∧ (runOps (NewQueue ℕ 1) egQueueOps).1.toList
      = (runModel (NewQueue ℕ 1).toList egQueueOps).1
    ∧ (runOps (NewQueue ℕ 1) egQueueOps).1.size
      = (runModel (NewQueue ℕ 1).toList egQueueOps).1.length
    ∧ (runOps (NewQueue ℕ 1) egQueueOps).1.Inv :=
  queue_fifo egQueueOps (NewQueue ℕ 1)
    ⟨1, by decide, by decide, by decide, by decide, by decide⟩ (by decide)


theorem getLastD_eq_getD (l : List ℕ) :
    l.getLastD 0 = l.getD (l.length - 1) 0 := by
  rw [List.getLastD_eq_getLast?, List.getLast?_eq_getElem?,
    List.getD_eq_getElem?_getD]

theorem pos_neg_of_varID (l : ℕ) :
    (PositiveLiteral (VarID l) = l
      ∧ NegativeLiteral (VarID l) = opposite l)
    ∨ (PositiveLiteral (VarID l) = opposite l
      ∧ NegativeLiteral (VarID l) = l) := by
  rw [opposite_eq]
  unfold PositiveLiteral NegativeLiteral VarID
  rcases Nat.mod_two_eq_zero_or_one l with h | h
  · refine Or.inl ⟨?_, ?_⟩
    · omega
    · rw [if_pos h]
      omega
  · refine Or.inr ⟨?_, ?_⟩
    · rw [if_neg (by omega)]
      omega
    · omega

theorem unnassignedLast_frame (s : Solver) (w : ℕ)
    (hw : w ≠ VarID (s.trail.getLastD 0)) :
    s.unnassignedLast.assignReasons w = s.assignReasons w
    ∧ s.unnassignedLast.assignLevels w = s.assignLevels w
    ∧ s.unnassignedLast.order.phases w = s.order.phases w := by
  unfold Solver.unnassignedLast VarOrder.Reinsert
  dsimp only
  refine ⟨Function.update_noteq hw _ _, Function.update_noteq hw _ _, ?_⟩
  split
  · exact Function.update_noteq hw _ _
  · rfl

theorem unnassignedLast_assigns_frame (s : Solver) (x : ℕ)
    (hx : VarID x ≠ VarID (s.trail.getLastD 0)) :
    s.unnassignedLast.assigns x = s.assigns x := by
  have h1 : x ≠ s.trail.getLastD 0 := fun he => hx (by rw [he])
  have h2 : x ≠ opposite (s.trail.getLastD 0) := fun he =>
    hx (by rw [he, varID_opposite])
  unfold Solver.unnassignedLast
  dsimp only
  rw [Function.update_noteq h2, Function.update_noteq h1]

theorem unnassignedLast_heap_mono (s : Solver) (w : ℕ)
    (hw : w ∈ s.order.heap) : w ∈ s.unnassignedLast.order.heap := by
  unfold Solver.unnassignedLast VarOrder.Reinsert
  dsimp only
  split
  · exact hw
  · exact List.mem_append_left _ hw

theorem unnassignedLast_cleared (s : Solver) :
    s.unnassignedLast.assigns (s.trail.getLastD 0) = .lunknown
    ∧ s.unnassignedLast.assigns (opposite (s.trail.getLastD 0)) = .lunknown
    ∧ s.unnassignedLast.assignReasons (VarID (s.trail.getLastD 0)) = none
    ∧ s.unnassignedLast.assignLevels (VarID (s.trail.getLastD 0)) = -1
    ∧ VarID (s.trail.getLastD 0) ∈ s.unnassignedLast.order.heap
    ∧ (s.order.phaseSaving = true →
        s.unnassignedLast.order.phases (VarID (s.trail.getLastD 0))
          = s.VarValue (VarID (s.trail.getLastD 0))) := by
  unfold Solver.unnassignedLast VarOrder.Reinsert
  dsimp only
  refine ⟨?_, Function.update_same .., Function.update_same ..,
    Function.update_same .., ?_, ?_⟩
  · rw [Function.update_noteq (Ne.symm (opposite_ne _)), Function.update_same]
  · split
    · next hmem => exact hmem
    · exact List.mem_append_right _ (List.mem_singleton.mpr rfl)
  · intro hps
    rw [if_pos hps, Function.update_same]

theorem unnassignedLast_fields (s : Solver) :
    s.unnassignedLast.order.phaseSaving = s.order.phaseSaving
    ∧ s.unnassignedLast.trailLim = s.trailLim
    ∧ s.unnassignedLast.trail = s.trail.dropLast := by
  unfold Solver.unnassignedLast VarOrder.Reinsert
  exact ⟨rfl, rfl, rfl⟩

theorem unassignN_spec :
    ∀ (n : ℕ) (s : Solver),
      n ≤ s.trail.length →
      (s.trail.map VarID).Nodup →
      (unassignN s n).trail = s.trail.take (s.trail.length - n)
      ∧ (unassignN s n).trailLim = s.trailLim
      ∧ (unassignN s n).order.phaseSaving = s.order.phaseSaving
      ∧ (∀ w ∈ s.order.heap, w ∈ (unassignN s n).order.heap)
      ∧ (∀ v : ℕ,
          (∀ p : ℕ, s.trail.length - n ≤ p → p < s.trail.length →
            VarID (s.trail.getD p 0) ≠ v) →
          (unassignN s n).assignReasons v = s.assignReasons v
          ∧ (unassignN s n).assignLevels v = s.assignLevels v
          ∧ (unassignN s n).order.phases v = s.order.phases v)
      ∧ (∀ x : ℕ,
          (∀ p : ℕ, s.trail.length - n ≤ p → p < s.trail.length →
            VarID (s.trail.getD p 0) ≠ VarID x) →
          (unassignN s n).assigns x = s.assigns x)
      ∧ (∀ p : ℕ, s.trail.length - n ≤ p → p < s.trail.length →
          (unassignN s n).assigns
              (PositiveLiteral (VarID (s.trail.getD p 0))) = .lunknown
          ∧ (unassignN s n).assigns
              (NegativeLiteral (VarID (s.trail.getD p 0))) = .lunknown
          ∧ (unassignN s n).assignReasons (VarID (s.trail.getD p 0)) = none
          ∧ (unassignN s n).assignLevels (VarID (s.trail.getD p 0)) = -1
          ∧ VarID (s.trail.getD p 0) ∈ (unassignN s n).order.heap
          ∧ (s.order.phaseSaving = true →
              (unassignN s n).order.phases (VarID (s.trail.getD p 0))
                = s.VarValue (VarID (s.trail.getD p 0)))) := by
  intro n
  induction n with
  | zero =>
    intro s _ _
    refine ⟨by simp only [unassignN]; rw [Nat.sub_zero, List.take_length],
      rfl, rfl,
      fun w hw => hw, fun v _ => ⟨rfl, rfl, rfl⟩, fun x _ => rfl, ?_⟩
    intro p hp1 hp2
    omega
  | succ n ih =>
    intro s hn hnd
    have hlen : 0 < s.trail.length := by omega
    obtain ⟨hps', hlim', htr'⟩ := unnassignedLast_fields s
    have hlast : s.trail.getLastD 0 = s.trail.getD (s.trail.length - 1) 0 :=
      getLastD_eq_getD _
    have htr'len : s.unnassignedLast.trail.length = s.trail.length - 1 := by
      rw [htr', List.length_dropLast]
    have hmapdl : s.unnassignedLast.trail.map VarID
        = (s.trail.map VarID).dropLast := by
      rw [htr', List.dropLast_eq_take, List.dropLast_eq_take, List.map_take,
        List.length_map]
    have hnd' : (s.unnassignedLast.trail.map VarID).Nodup := by
      rw [hmapdl]
      exact (List.dropLast_sublist _).nodup hnd
    have hgetD' : ∀ p : ℕ, p < s.trail.length - 1 →
        s.unnassignedLast.trail.getD p 0 = s.trail.getD p 0 := by
      intro p hp
      rw [htr', List.dropLast_eq_take]
      have hb1 : p < (List.take (s.trail.length - 1) s.trail).length := by
        rw [List.length_take]
        omega
      rw [List.getD_eq_getElem _ _ hb1, List.getElem_take,
        List.getD_eq_getElem _ _ (by omega)]
    have hvarne : ∀ p : ℕ, p < s.trail.length - 1 →
        VarID (s.trail.getD p 0) ≠ VarID (s.trail.getD (s.trail.length - 1) 0) := by
      intro p hp he
      have hb1 : p < (s.trail.map VarID).length := by
        rw [List.length_map]
        omega
      have hb2 : s.trail.length - 1 < (s.trail.map VarID).length := by
        rw [List.length_map]
        omega
      have hm : (s.trail.map VarID).get ⟨p, hb1⟩
          = (s.trail.map VarID).get ⟨s.trail.length - 1, hb2⟩ := by
        rw [List.get_eq_getElem, List.get_eq_getElem, List.getElem_map,
          List.getElem_map]
        rw [← List.getD_eq_getElem _ 0, ← List.getD_eq_getElem _ 0]
        exact he
      have := (hnd.get_inj_iff).mp hm
      have := congrArg Fin.val this
      simp only at this
      omega
    obtain ⟨ih1, ih2, ih3, ih4, ih5, ih6, ih7⟩ :=
      ih s.unnassignedLast (by omega) hnd'
    have hreduce : unassignN s (n + 1) = unassignN s.unnassignedLast n := rfl
    rw [hreduce]
    refine ⟨?_, ?_, ?_, ?_, ?_, ?_, ?_⟩
    · rw [ih1, htr', List.length_dropLast, List.dropLast_eq_take,
        List.take_take]
      congr 1
      omega
    · rw [ih2, hlim']
    · rw [ih3, hps']
    · intro w hw
      exact ih4 w (unnassignedLast_heap_mono s w hw)
    · intro v hv
      have hvne : v ≠ VarID (s.trail.getLastD 0) := by
        rw [hlast]
        intro he
        exact hv (s.trail.length - 1) (by omega) (by omega) he.symm
      have hstep := unnassignedLast_frame s v hvne
      have hind := ih5 v ?_
      · exact ⟨hind.1.trans hstep.1, hind.2.1.trans hstep.2.1,
          hind.2.2.trans hstep.2.2⟩
      · intro p hp1 hp2
        rw [htr'len] at hp1 hp2
        rw [hgetD' p (by omega)]
        exact hv p (by omega) (by omega)
    · intro x hx
      have hvne : VarID x ≠ VarID (s.trail.getLastD 0) := by
        rw [hlast]
        intro he
        exact hx (s.trail.length - 1) (by omega) (by omega) he.symm
      have hstep := unnassignedLast_assigns_frame s x hvne
      have hind := ih6 x ?_
      · exact hind.trans hstep
      · intro p hp1 hp2
        rw [htr'len] at hp1 hp2
        rw [hgetD' p (by omega)]
        exact hx p (by omega) (by omega)
    · intro p hp1 hp2
      by_cases hp : p = s.trail.length - 1
      · subst hp
        have hcl := unnassignedLast_cleared s
        rw [hlast] at hcl
        have hfri : ∀ q : ℕ, s.unnassignedLast.trail.length - n ≤ q →
            q < s.unnassignedLast.trail.length →
            VarID (s.unnassignedLast.trail.getD q 0)
              ≠ VarID (s.trail.getD (s.trail.length - 1) 0) := by
          intro q hq1 hq2
          rw [htr'len] at hq1 hq2
          rw [hgetD' q (by omega)]
          exact hvarne q (by omega)
        have hfr := ih5 (VarID (s.trail.getD (s.trail.length - 1) 0)) hfri
        have hfrx1 := ih6 (PositiveLiteral (VarID (s.trail.getD
          (s.trail.length - 1) 0))) ?_
        have hfrx2 := ih6 (NegativeLiteral (VarID (s.trail.getD
          (s.trail.length - 1) 0))) ?_
        · refine ⟨?_, ?_, ?_, ?_, ?_, ?_⟩
          · rw [hfrx1]
            rcases pos_neg_of_varID (s.trail.getD (s.trail.length - 1) 0)
              with ⟨hpn1, _⟩ | ⟨hpn1, _⟩
            · rw [hpn1]
              exact hcl.1
            · rw [hpn1]
              exact hcl.2.1
          · rw [hfrx2]
            rcases pos_neg_of_varID (s.trail.getD (s.trail.length - 1) 0)
              with ⟨_, hpn2⟩ | ⟨_, hpn2⟩
            · rw [hpn2]
              exact hcl.2.1
            · rw [hpn2]
              exact hcl.1
          · rw [hfr.1]
            exact hcl.2.2.1
          · rw [hfr.2.1]
            exact hcl.2.2.2.1
          · exact ih4 _ hcl.2.2.2.2.1
          · intro hps
            rw [hfr.2.2]
            exact hcl.2.2.2.2.2 hps
        · intro q hq1 hq2
          rw [htr'len] at hq1 hq2
          rw [hgetD' q (by omega), varID_negativeLiteral]
          exact hvarne q (by omega)
        · intro q hq1 hq2
          rw [htr'len] at hq1 hq2
          rw [hgetD' q (by omega), varID_positiveLiteral]
          exact hvarne q (by omega)
      · have hp2' : p < s.trail.length - 1 := by omega
        have hind := ih7 p ?_ ?_
        · rw [hgetD' p hp2'] at hind
          refine ⟨hind.1, hind.2.1, hind.2.2.1, hind.2.2.2.1,
            hind.2.2.2.2.1, ?_⟩
          intro hps
          have := hind.2.2.2.2.2 (by rw [hps']; exact hps)
          rw [this]
          show s.unnassignedLast.assigns _ = s.assigns _
          apply unnassignedLast_assigns_frame
          rw [hlast, varID_positiveLiteral]
          exact hvarne p hp2'
        · rw [htr'len]
          omega
        · rw [htr'len]
          omega


theorem getD_take (L : List ℕ) (i m : ℕ) (hi : i < m) (hL : i < L.length) :
    (L.take m).getD i 0 = L.getD i 0 := by
  have hb : i < (L.take m).length := by
    rw [List.length_take]
    omega
  rw [List.getD_eq_getElem _ _ hb, List.getElem_take,
    List.getD_eq_getElem _ _ hL]

theorem getD_dropLast (L : List ℕ) (i : ℕ) (hi : i < L.length - 1) :
    L.dropLast.getD i 0 = L.getD i 0 := by
  rw [List.dropLast_eq_take]
  exact getD_take L i _ hi (by omega)

theorem varID_getD_ne {L : List ℕ} (hnd : (L.map VarID).Nodup) {p q : ℕ}
    (hp : p < L.length) (hq : q < L.length) (hne : p ≠ q) :
    VarID (L.getD p 0) ≠ VarID (L.getD q 0) := by
  intro he
  have hb1 : p < (L.map VarID).length := by
    rw [List.length_map]
    exact hp
  have hb2 : q < (L.map VarID).length := by
    rw [List.length_map]
    exact hq
  have hm : (L.map VarID).get ⟨p, hb1⟩ = (L.map VarID).get ⟨q, hb2⟩ := by
    rw [List.get_eq_getElem, List.get_eq_getElem, List.getElem_map,
      List.getElem_map, ← List.getD_eq_getElem _ 0, ← List.getD_eq_getElem _ 0]
    exact he
  have := congrArg Fin.val ((hnd.get_inj_iff).mp hm)
  simp only at this
  omega

theorem filter_le_length_le (L : List ℕ) (t p : ℕ)
    (hs : ∀ i j : ℕ, i ≤ j → j < L.length → L.getD i 0 ≤ L.getD j 0)
    (htl : t < L.length) (hp : p < L.getD t 0) :
    (L.filter (fun m => m ≤ p)).length ≤ t := by
  conv_lhs => rw [← List.take_append_drop t L]
  rw [List.filter_append]
  have hnil : (L.drop t).filter (fun m => m ≤ p) = [] := by
    rw [List.filter_eq_nil_iff]
    intro a ha
    obtain ⟨i, hi, hget⟩ := List.mem_iff_getElem.mp ha
    have hilen : t + i < L.length := by
      rw [List.length_drop] at hi
      omega
    have : L.getD t 0 ≤ L.getD (t + i) 0 := hs t (t + i) (by omega) hilen
    rw [List.getElem_drop] at hget
    rw [List.getD_eq_getElem _ _ hilen, hget] at this
    simp only [decide_eq_true_eq]
    omega
  rw [hnil, List.length_append, List.length_nil]
  have : (List.filter (fun m => decide (m ≤ p)) (L.take t)).length
      ≤ (L.take t).length := List.length_filter_le _ _
  rw [List.length_take] at this
  omega

theorem filter_le_length_gt (L : List ℕ) (t p : ℕ)
    (hs : ∀ i j : ℕ, i ≤ j → j < L.length → L.getD i 0 ≤ L.getD j 0)
    (htl : t < L.length) (hp : L.getD t 0 ≤ p) :
    t < (L.filter (fun m => m ≤ p)).length := by
  conv_rhs => rw [← List.take_append_drop (t + 1) L]
  rw [List.filter_append, List.length_append]
  have hself : (L.take (t + 1)).filter (fun m => m ≤ p) = L.take (t + 1) := by
    rw [List.filter_eq_self]
    intro a ha
    obtain ⟨i, hi, hget⟩ := List.mem_iff_getElem.mp ha
    have hb : i < L.length := by
      rw [List.length_take] at hi
      omega
    have hit : i ≤ t := by
      rw [List.length_take] at hi
      omega
    have : L.getD i 0 ≤ L.getD t 0 := hs i t hit htl
    rw [List.getElem_take] at hget
    rw [List.getD_eq_getElem _ _ hb, hget] at this
    simp only [decide_eq_true_eq]
    omega
  rw [hself, List.length_take]
  omega

theorem filter_le_dropLast (L : List ℕ) (p : ℕ) (hL : 0 < L.length)
    (hlast : p < L.getD (L.length - 1) 0) :
    L.filter (fun m => m ≤ p) = L.dropLast.filter (fun m => m ≤ p) := by
  conv_lhs => rw [← List.take_append_drop (L.length - 1) L]
  rw [List.filter_append]
  have hd1 : L.drop (L.length - 1) = [L.getD (L.length - 1) 0] := by
    rw [List.drop_eq_getElem_cons (show L.length - 1 < L.length by omega),
      List.drop_eq_nil_of_le (by omega),
      List.getD_eq_getElem _ _ (show L.length - 1 < L.length by omega)]
  have hcond : ¬ (decide (L.getD (L.length - 1) 0 ≤ p) = true) := by
    simp only [decide_eq_true_eq]
    omega
  rw [hd1, List.filter_cons, if_neg hcond, List.filter_nil,
    List.append_nil, List.dropLast_eq_take]


theorem backtrackStep_spec (s : Solver) (hwf : TrailWF s)
    (hpos : 0 < s.trailLim.length) :
    TrailWF (backtrackStep s)
    ∧ (backtrackStep s).trailLim = s.trailLim.dropLast
    ∧ (backtrackStep s).trail = s.trail.take (s.trailLim.getLastD 0)
    ∧ (backtrackStep s).order.phaseSaving = s.order.phaseSaving
    ∧ (∀ w ∈ s.order.heap, w ∈ (backtrackStep s).order.heap)
    ∧ (∀ v : ℕ,
        (∀ p : ℕ, s.trailLim.getLastD 0 ≤ p → p < s.trail.length →
          VarID (s.trail.getD p 0) ≠ v) →
        (backtrackStep s).assignReasons v = s.assignReasons v
        ∧ (backtrackStep s).assignLevels v = s.assignLevels v
        ∧ (backtrackStep s).order.phases v = s.order.phases v
        ∧ ∀ x : ℕ, VarID x = v →
            (backtrackStep s).assigns x = s.assigns x)
    ∧ (∀ p : ℕ, s.trailLim.getLastD 0 ≤ p → p < s.trail.length →
        (backtrackStep s).assigns
            (PositiveLiteral (VarID (s.trail.getD p 0))) = .lunknown
        ∧ (backtrackStep s).assigns
            (NegativeLiteral (VarID (s.trail.getD p 0))) = .lunknown
        ∧ (backtrackStep s).assignReasons (VarID (s.trail.getD p 0)) = none
        ∧ (backtrackStep s).assignLevels (VarID (s.trail.getD p 0)) = -1
        ∧ VarID (s.trail.getD p 0) ∈ (backtrackStep s).order.heap
        ∧ (s.order.phaseSaving = true →
            (backtrackStep s).order.phases (VarID (s.trail.getD p 0))
              = s.VarValue (VarID (s.trail.getD p 0)))) := by
  obtain ⟨h1, h2, h3, h4, h5⟩ := hwf
  have hmdef : s.trailLim.getLastD 0
      = s.trailLim.getD (s.trailLim.length - 1) 0 := getLastD_eq_getD _
  have hm_le : s.trailLim.getLastD 0 ≤ s.trail.length := by
    rw [hmdef]
    exact h1 _ (by omega)
  have htake : s.trail.length - (s.trail.length - s.trailLim.getLastD 0)
      = s.trailLim.getLastD 0 := by omega
  obtain ⟨U1, U2, U3, U4, U5, U6, U7⟩ :=
    unassignN_spec (s.trail.length - s.trailLim.getLastD 0) s (by omega) h4
  rw [htake] at U1 U5 U6 U7
  have hBtrail : (backtrackStep s).trail
      = s.trail.take (s.trailLim.getLastD 0) := U1
  have hBlim : (backtrackStep s).trailLim = s.trailLim.dropLast := by
    show (unassignN s (s.trail.length - s.trailLim.getLastD 0)).trailLim.dropLast
      = s.trailLim.dropLast
    rw [U2]
  have hBps : (backtrackStep s).order.phaseSaving = s.order.phaseSaving := U3
  have hBassigns : (backtrackStep s).assigns
      = (unassignN s (s.trail.length - s.trailLim.getLastD 0)).assigns := rfl
  have hBlevels : (backtrackStep s).assignLevels
      = (unassignN s (s.trail.length - s.trailLim.getLastD 0)).assignLevels := rfl
  have hBlen : (backtrackStep s).trail.length = s.trailLim.getLastD 0 := by
    rw [hBtrail, List.length_take]
    omega
  have hBlimlen : (backtrackStep s).trailLim.length = s.trailLim.length - 1 := by
    rw [hBlim, List.length_dropLast]
  have htrget : ∀ p : ℕ, p < s.trailLim.getLastD 0 →
      (backtrackStep s).trail.getD p 0 = s.trail.getD p 0 := by
    intro p hp
    rw [hBtrail]
    exact getD_take _ _ _ hp (by omega)
  have hlimget : ∀ i : ℕ, i < s.trailLim.length - 1 →
      (backtrackStep s).trailLim.getD i 0 = s.trailLim.getD i 0 := by
    intro i hi
    rw [hBlim]
    exact getD_dropLast _ _ hi
  have hframe : ∀ v : ℕ,
      (∀ p : ℕ, s.trailLim.getLastD 0 ≤ p → p < s.trail.length →
        VarID (s.trail.getD p 0) ≠ v) →
      (backtrackStep s).assignReasons v = s.assignReasons v
      ∧ (backtrackStep s).assignLevels v = s.assignLevels v
      ∧ (backtrackStep s).order.phases v = s.order.phases v
      ∧ ∀ x : ℕ, VarID x = v →
          (backtrackStep s).assigns x = s.assigns x := by
    intro v hv
    obtain ⟨e1, e2, e3⟩ := U5 v hv
    refine ⟨e1, e2, e3, ?_⟩
    intro x hx
    refine U6 x ?_
    intro p hp1 hp2
    rw [hx]
    exact hv p hp1 hp2
  refine ⟨⟨?_, ?_, ?_, ?_, ?_⟩, hBlim, hBtrail, hBps, U4, hframe, U7⟩
  · intro i hi
    rw [hBlimlen] at hi
    rw [hlimget i hi, hBlen, hmdef]
    exact h2 i (s.trailLim.length - 1) (by omega) (by omega)
  · intro i j hij hj
    rw [hBlimlen] at hj
    rw [hlimget i (by omega), hlimget j hj]
    exact h2 i j hij (by omega)
  · intro p hp
    rw [hBlen] at hp
    have hpl : p < s.trail.length := by omega
    rw [htrget p hp]
    have hvp : ∀ q : ℕ, s.trailLim.getLastD 0 ≤ q → q < s.trail.length →
        VarID (s.trail.getD q 0) ≠ VarID (s.trail.getD p 0) :=
      fun q hq1 hq2 => varID_getD_ne h4 hq2 hpl (by omega)
    refine ⟨?_, ?_, ?_⟩
    · rw [hBassigns, U6 _ hvp]
      exact (h3 p hpl).1
    · have hvp' : ∀ q : ℕ, s.trailLim.getLastD 0 ≤ q → q < s.trail.length →
          VarID (s.trail.getD q 0) ≠ VarID (opposite (s.trail.getD p 0)) := by
        intro q hq1 hq2
        rw [varID_opposite]
        exact hvp q hq1 hq2
      rw [hBassigns, U6 _ hvp']
      exact (h3 p hpl).2.1
    · have hlev : levelOfPos (backtrackStep s) p = levelOfPos s p := by
        unfold levelOfPos
        rw [hBlim, ← filter_le_dropLast s.trailLim p hpos
          (by rw [← hmdef]; exact hp)]
      rw [hBlevels, (U5 _ hvp).2.1, hlev]
      exact (h3 p hpl).2.2
  · rw [hBtrail, List.map_take]
    exact (List.take_sublist _ _).nodup h4
  · intro v hv
    by_cases hd : ∃ q : ℕ, s.trailLim.getLastD 0 ≤ q ∧ q < s.trail.length
        ∧ VarID (s.trail.getD q 0) = v
    · exfalso
      obtain ⟨q, hq1, hq2, hqv⟩ := hd
      have hm1 := (U7 q hq1 hq2).2.2.2.1
      rw [hqv] at hm1
      rw [hBlevels, hm1] at hv
      omega
    · have hnd' : ∀ q : ℕ, s.trailLim.getLastD 0 ≤ q → q < s.trail.length →
          VarID (s.trail.getD q 0) ≠ v :=
        fun q hq1 hq2 he => hd ⟨q, hq1, hq2, he⟩
      rw [hBlevels, (U5 v hnd').2.1] at hv
      obtain ⟨p, hp, hpv⟩ := h5 v hv
      have hpm : p < s.trailLim.getLastD 0 := by
        by_contra hge
        exact hnd' p (by omega) hp hpv
      refine ⟨p, ?_, ?_⟩
      · rw [hBlen]
        exact hpm
      · rw [htrget p hpm]
        exact hpv


theorem backtrackStep_marker (s : Solver) (hwf : TrailWF s) (target : ℕ)
    (ht : target < s.trailLim.length) :
    trailMarker (backtrackStep s) target = trailMarker s target
    ∧ trailMarker s target ≤ s.trailLim.getLastD 0 := by
  have hmdef : s.trailLim.getLastD 0
      = s.trailLim.getD (s.trailLim.length - 1) 0 := getLastD_eq_getD _
  have hS := backtrackStep_spec s hwf (by omega)
  have hBlim := hS.2.1
  have hBtrail := hS.2.2.1
  have hm_le : s.trailLim.getLastD 0 ≤ s.trail.length := by
    rw [hmdef]
    exact hwf.1 _ (by omega)
  have hlen' : (backtrackStep s).trail.length = s.trailLim.getLastD 0 := by
    rw [hBtrail, List.length_take]
    omega
  refine ⟨?_, ?_⟩
  · simp only [trailMarker]
    rw [hBlim, List.length_dropLast, hlen']
    by_cases hcase : target < s.trailLim.length - 1
    · rw [if_pos hcase, if_pos ht]
      exact getD_dropLast _ _ hcase
    · have htl : target = s.trailLim.length - 1 := by omega
      rw [if_neg hcase, if_pos ht, htl, ← hmdef]
  · simp only [trailMarker]
    rw [if_pos ht, hmdef]
    exact hwf.2.1 target (s.trailLim.length - 1) (by omega) (by omega)

theorem backtrack_bundle_refl (s : Solver) (target : ℕ) (hwf : TrailWF s)
    (htl : target = s.trailLim.length) :
    TrailWF s
    ∧ s.trailLim = s.trailLim.take target
    ∧ s.trail = s.trail.take (trailMarker s target)
    ∧ s.order.phaseSaving = s.order.phaseSaving
    ∧ (∀ w ∈ s.order.heap, w ∈ s.order.heap)
    ∧ (∀ v : ℕ,
        (∀ p : ℕ, trailMarker s target ≤ p → p < s.trail.length →
          VarID (s.trail.getD p 0) ≠ v) →
        s.assignReasons v = s.assignReasons v
        ∧ s.assignLevels v = s.assignLevels v
        ∧ s.order.phases v = s.order.phases v
        ∧ ∀ x : ℕ, VarID x = v → s.assigns x = s.assigns x)
    ∧ (∀ p : ℕ, trailMarker s target ≤ p → p < s.trail.length →
        s.assigns (PositiveLiteral (VarID (s.trail.getD p 0))) = .lunknown
        ∧ s.assigns (NegativeLiteral (VarID (s.trail.getD p 0))) = .lunknown
        ∧ s.assignReasons (VarID (s.trail.getD p 0)) = none
        ∧ s.assignLevels (VarID (s.trail.getD p 0)) = -1
        ∧ VarID (s.trail.getD p 0) ∈ s.order.heap
        ∧ (s.order.phaseSaving = true →
            s.order.phases (VarID (s.trail.getD p 0))
              = s.VarValue (VarID (s.trail.getD p 0)))) := by
  have hmt : trailMarker s target = s.trail.length := by
    unfold trailMarker
    rw [if_neg (by omega)]
  refine ⟨hwf, by rw [htl, List.take_length], by rw [hmt, List.take_length],
    rfl, fun w hw => hw, fun v _ => ⟨rfl, rfl, rfl, fun x _ => rfl⟩, ?_⟩
  intro p hp1 hp2
  exact absurd hp2 (by rw [hmt] at hp1; omega)

theorem backtrackLoop_spec :
    ∀ (fuel : ℕ) (s : Solver) (target : ℕ),
      TrailWF s → target ≤ s.decisionLevel → s.decisionLevel ≤ target + fuel →
      TrailWF (backtrackLoop target s fuel)
      ∧ (backtrackLoop target s fuel).trailLim = s.trailLim.take target
      ∧ (backtrackLoop target s fuel).trail
          = s.trail.take (trailMarker s target)
      ∧ (backtrackLoop target s fuel).order.phaseSaving
          = s.order.phaseSaving
      ∧ (∀ w ∈ s.order.heap, w ∈ (backtrackLoop target s fuel).order.heap)
      ∧ (∀ v : ℕ,
          (∀ p : ℕ, trailMarker s target ≤ p → p < s.trail.length →
            VarID (s.trail.getD p 0) ≠ v) →
          (backtrackLoop target s fuel).assignReasons v = s.assignReasons v
          ∧ (backtrackLoop target s fuel).assignLevels v = s.assignLevels v
          ∧ (backtrackLoop target s fuel).order.phases v = s.order.phases v
          ∧ ∀ x : ℕ, VarID x = v →
              (backtrackLoop target s fuel).assigns x = s.assigns x)
      ∧ (∀ p : ℕ, trailMarker s target ≤ p → p < s.trail.length →
          (backtrackLoop target s fuel).assigns
              (PositiveLiteral (VarID (s.trail.getD p 0))) = .lunknown
          ∧ (backtrackLoop target s fuel).assigns
              (NegativeLiteral (VarID (s.trail.getD p 0))) = .lunknown
          ∧ (backtrackLoop target s fuel).assignReasons
              (VarID (s.trail.getD p 0)) = none
          ∧ (backtrackLoop target s fuel).assignLevels
              (VarID (s.trail.getD p 0)) = -1
          ∧ VarID (s.trail.getD p 0)
              ∈ (backtrackLoop target s fuel).order.heap
          ∧ (s.order.phaseSaving = true →
              (backtrackLoop target s fuel).order.phases
                  (VarID (s.trail.getD p 0))
                = s.VarValue (VarID (s.trail.getD p 0)))) := by
  intro fuel
  induction fuel with
  | zero =>
    intro s target hwf ht1 ht2
    simp only [Solver.decisionLevel] at ht1 ht2
    exact backtrack_bundle_refl s target hwf (by omega)
  | succ fuel ih =>
    intro s target hwf ht1 ht2
    by_cases hlt : target < s.decisionLevel
    case neg =>
      simp only [Solver.decisionLevel] at ht1 hlt
      have hred : backtrackLoop target s (fuel + 1) = s := by
        show (if target < s.decisionLevel then
          backtrackLoop target (backtrackStep s) fuel else s) = s
        rw [if_neg (by simp only [Solver.decisionLevel]; omega)]
      rw [hred]
      exact backtrack_bundle_refl s target hwf (by omega)
    case pos =>
      have htlen : target < s.trailLim.length := by
        simp only [Solver.decisionLevel] at hlt
        exact hlt
      have hpos : 0 < s.trailLim.length := by omega
      have hmdef : s.trailLim.getLastD 0
          = s.trailLim.getD (s.trailLim.length - 1) 0 := getLastD_eq_getD _
      have hm_le : s.trailLim.getLastD 0 ≤ s.trail.length := by
        rw [hmdef]
        exact hwf.1 _ (by omega)
      have h4s : (s.trail.map VarID).Nodup := hwf.2.2.2.1
      obtain ⟨S1, S2, S3, S4, S5, S6, S7⟩ := backtrackStep_spec s hwf hpos
      obtain ⟨hmk1, hmk2⟩ := backtrackStep_marker s hwf target htlen
      have hSlen : (backtrackStep s).trail.length = s.trailLim.getLastD 0 := by
        rw [S3, List.length_take]
        omega
      have hSget : ∀ p : ℕ, p < s.trailLim.getLastD 0 →
          (backtrackStep s).trail.getD p 0 = s.trail.getD p 0 := by
        intro p hp
        rw [S3]
        exact getD_take _ _ _ hp (by omega)
      have hDL : (backtrackStep s).decisionLevel = s.trailLim.length - 1 := by
        simp only [Solver.decisionLevel]
        rw [S2, List.length_dropLast]
      obtain ⟨L1, L2, L3, L4, L5, L6, L7⟩ := ih (backtrackStep s) target S1
        (by rw [hDL]; omega)
        (by rw [hDL]; simp only [Solver.decisionLevel] at ht2; omega)
      simp only [backtrackLoop]
      rw [if_pos hlt]
      refine ⟨L1, ?_, ?_, ?_, ?_, ?_, ?_⟩
      · rw [L2, S2, List.dropLast_eq_take, List.take_take]
        congr 1
        omega
      · rw [L3, hmk1, S3, List.take_take]
        congr 1
        omega
      · rw [L4, S4]
      · exact fun w hw => L5 w (S5 w hw)
      · intro v hv
        have hvS : ∀ p : ℕ, s.trailLim.getLastD 0 ≤ p → p < s.trail.length →
            VarID (s.trail.getD p 0) ≠ v :=
          fun p hp1 hp2 => hv p (by omega) hp2
        have hv' : ∀ p : ℕ, trailMarker (backtrackStep s) target ≤ p →
            p < (backtrackStep s).trail.length →
            VarID ((backtrackStep s).trail.getD p 0) ≠ v := by
          intro p hp1 hp2
          rw [hmk1] at hp1
          rw [hSlen] at hp2
          rw [hSget p hp2]
          exact hv p hp1 (by omega)
        obtain ⟨F1, F2, F3, F4⟩ := S6 v hvS
        obtain ⟨G1, G2, G3, G4⟩ := L6 v hv'
        exact ⟨G1.trans F1, G2.trans F2, G3.trans F3,
          fun x hx => (G4 x hx).trans (F4 x hx)⟩
      · intro p hp1 hp2
        by_cases hpm : p < s.trailLim.getLastD 0
        · have hp' := L7 p (by rw [hmk1]; exact hp1)
            (by rw [hSlen]; exact hpm)
          rw [hSget p hpm] at hp'
          obtain ⟨C1, C2, C3, C4, C5, C6⟩ := hp'
          refine ⟨C1, C2, C3, C4, C5, ?_⟩
          intro hps
          rw [C6 (by rw [S4]; exact hps)]
          have hvS : ∀ q : ℕ, s.trailLim.getLastD 0 ≤ q →
              q < s.trail.length →
              VarID (s.trail.getD q 0) ≠ VarID (s.trail.getD p 0) :=
            fun q hq1 hq2 => varID_getD_ne h4s hq2 hp2 (by omega)
          have hva := (S6 (VarID (s.trail.getD p 0)) hvS).2.2.2
          show (backtrackStep s).VarValue _ = s.VarValue _
          unfold Solver.VarValue
          exact hva (PositiveLiteral _) (varID_positiveLiteral _)
        · obtain ⟨C1, C2, C3, C4, C5, C6⟩ := S7 p (by omega) hp2
          have hv' : ∀ q : ℕ, trailMarker (backtrackStep s) target ≤ q →
              q < (backtrackStep s).trail.length →
              VarID ((backtrackStep s).trail.getD q 0)
                ≠ VarID (s.trail.getD p 0) := by
            intro q hq1 hq2
            rw [hSlen] at hq2
            rw [hSget q hq2]
            exact varID_getD_ne h4s (by omega) hp2 (by omega)
          obtain ⟨G1, G2, G3, G4⟩ := L6 (VarID (s.trail.getD p 0)) hv'
          refine ⟨?_, ?_, ?_, ?_, ?_, ?_⟩
          · rw [G4 (PositiveLiteral _) (varID_positiveLiteral _)]
            exact C1
          · rw [G4 (NegativeLiteral _) (varID_negativeLiteral _)]
            exact C2
          · rw [G1]
            exact C3
          · rw [G2]
            exact C4
          · exact L5 _ C5
          · intro hps
            rw [G3]
            exact C6 hps


/-- C9: for every well-formed solver state and every target level at most
the current decision level, `backtrackTo(target)` leaves the decision
level equal to the target; every variable assigned at a level strictly
greater than the target has both of its literals reset to Unknown, its
reason cleared, its level set to -1, and is reinserted into the variable
order with its previous value as saved phase; the assignment value,
reason and level of every variable assigned at a level at most the target
are unchanged, and the trail is reduced to exactly the prefix of
literals at levels at most the target. -/
theorem backtrackTo_spec (s : Solver) (target : ℕ)
    (hwf : TrailWF s) (ht : target ≤ s.decisionLevel) :
    (s.backtrackTo target).decisionLevel = target
    ∧ (s.backtrackTo target).trail = s.trail.take (trailMarker s target)
    ∧ (∀ v : ℕ, (target : ℤ) < s.assignLevels v →
        (s.backtrackTo target).assigns (PositiveLiteral v) = .lunknown
        ∧ (s.backtrackTo target).assigns (NegativeLiteral v) = .lunknown
        ∧ (s.backtrackTo target).assignReasons v = none
        ∧ (s.backtrackTo target).assignLevels v = -1
        ∧ v ∈ (s.backtrackTo target).order.heap
        ∧ (s.order.phaseSaving = true →
            (s.backtrackTo target).order.phases v = s.VarValue v))
    ∧ (∀ v : ℕ, s.assignLevels v ≤ (target : ℤ) →
        (s.backtrackTo target).assignReasons v = s.assignReasons v
        ∧ (s.backtrackTo target).assignLevels v = s.assignLevels v
        ∧ ∀ x : ℕ, VarID x = v →
            (s.backtrackTo target).assigns x = s.assigns x) := by
  have hfl : s.backtrackTo target = backtrackLoop target s s.decisionLevel :=
    rfl
  obtain ⟨L1, L2, L3, L4, L5, L6, L7⟩ :=
    backtrackLoop_spec s.decisionLevel s target hwf ht (by omega)
  obtain ⟨h1, h2, h3, h4, h5⟩ := hwf
  have htlen : target ≤ s.trailLim.length := ht
  rw [hfl]
  refine ⟨?_, L3, ?_, ?_⟩
  · show (backtrackLoop target s s.decisionLevel).trailLim.length = target
    rw [L2, List.length_take]
    omega
  · intro v hv
    have hv0 : (0 : ℤ) ≤ s.assignLevels v :=
      le_trans (Int.natCast_nonneg target) hv.le
    obtain ⟨p, hp, hpv⟩ := h5 v hv0
    have hlev : s.assignLevels v = (levelOfPos s p : ℤ) := by
      rw [← hpv]
      exact (h3 p hp).2.2
    have hlt : target < levelOfPos s p := by
      rw [hlev] at hv
      exact_mod_cast hv
    have hmarker : trailMarker s target ≤ p := by
      by_cases hc : target < s.trailLim.length
      · unfold trailMarker
        rw [if_pos hc]
        by_contra hpc
        push_neg at hpc
        have hle := filter_le_length_le s.trailLim target p h2 hc hpc
        unfold levelOfPos at hlt
        omega
      · exfalso
        have hfl2 : levelOfPos s p ≤ s.trailLim.length :=
          List.length_filter_le _ _
        omega
    obtain ⟨C1, C2, C3, C4, C5, C6⟩ := L7 p hmarker hp
    rw [hpv] at C1 C2 C3 C4 C5 C6
    exact ⟨C1, C2, C3, C4, C5, C6⟩
  · intro v hv
    have hne : ∀ p : ℕ, trailMarker s target ≤ p → p < s.trail.length →
        VarID (s.trail.getD p 0) ≠ v := by
      intro p hp1 hp2 he
      have hlev : s.assignLevels v = (levelOfPos s p : ℤ) := by
        rw [← he]
        exact (h3 p hp2).2.2
      by_cases hc : target < s.trailLim.length
      · have hmeq : trailMarker s target = s.trailLim.getD target 0 := by
          unfold trailMarker
          rw [if_pos hc]
        have hmge : s.trailLim.getD target 0 ≤ p := by omega
        have hgt := filter_le_length_gt s.trailLim target p h2 hc hmge
        rw [hlev] at hv
        have hcast : levelOfPos s p ≤ target := by exact_mod_cast hv
        unfold levelOfPos at hcast
        omega
      · have hmt : trailMarker s target = s.trail.length := by
          unfold trailMarker
          rw [if_neg hc]
        omega
    obtain ⟨G1, G2, G3, G4⟩ := L6 v hne
    exact ⟨G1, G2, G4⟩

theorem egSolverBT_wf : TrailWF egSolverBT := by
  refine ⟨by decide, ?_, by decide, by decide, ?_⟩
  · intro i j hij hj
    have hlen1 : egSolverBT.trailLim.length = 1 := rfl
    have hj0 : j = 0 := by omega
    have hi0 : i = 0 := by omega
    rw [hi0, hj0]
  · intro v hv
    by_cases h0 : v = 0
    · subst h0
      exact ⟨0, by decide, by decide⟩
    · by_cases h1 : v = 1
      · subst h1
        exact ⟨1, by decide, by decide⟩
      · exfalso
        have hlv : egSolverBT.assignLevels v = -1 := by
          show (if v = 0 then (0 : ℤ) else if v = 1 then 1 else -1) = -1
          rw [if_neg h0, if_neg h1]
        rw [hlv] at hv
        omega

theorem backtrackTo_spec_witness :
    TrailWF egSolverBT
    ∧ 0 ≤ egSolverBT.decisionLevel
    ∧ (egSolverBT.backtrackTo 0).decisionLevel = 0 :=
  ⟨egSolverBT_wf, by decide,
    (backtrackTo_spec egSolverBT 0 egSolverBT_wf (by decide)).1⟩


theorem levelOfPos_le_decisionLevel (s : Solver) (p : ℕ) :
    levelOfPos s p ≤ s.decisionLevel :=
  List.length_filter_le _ _

theorem marker_le_iff_levelOfPos_eq (s : Solver)
    (h2 : ∀ i j : ℕ, i ≤ j → j < s.trailLim.length →
      s.trailLim.getD i 0 ≤ s.trailLim.getD j 0)
    (hdl : 0 < s.decisionLevel) (p : ℕ) :
    s.trailLim.getLastD 0 ≤ p ↔ levelOfPos s p = s.decisionLevel := by
  have hmdef : s.trailLim.getLastD 0
      = s.trailLim.getD (s.trailLim.length - 1) 0 := getLastD_eq_getD _
  have hdl' : 0 < s.trailLim.length := hdl
  have hub : levelOfPos s p ≤ s.decisionLevel := levelOfPos_le_decisionLevel s p
  simp only [Solver.decisionLevel] at hub ⊢
  constructor
  · intro hle
    have hlt : s.trailLim.length - 1 < levelOfPos s p :=
      filter_le_length_gt s.trailLim (s.trailLim.length - 1) p h2
        (by omega) (by rw [← hmdef]; exact hle)
    omega
  · intro heq
    by_contra hlt
    push_neg at hlt
    have hle2 : levelOfPos s p ≤ s.trailLim.length - 1 :=
      filter_le_length_le s.trailLim (s.trailLim.length - 1) p h2
        (by omega) (by rw [← hmdef]; exact hlt)
    omega

theorem selectNext_spec (s : Solver) (seen : Finset ℕ) :
    ∀ (T p0 : ℕ), p0 < T → VarID (s.trail.getD p0 0) ∈ seen →
    ∃ t : ℕ, selectNext s seen T = some t ∧ p0 ≤ t ∧ t < T
      ∧ VarID (s.trail.getD t 0) ∈ seen
      ∧ ∀ p : ℕ, t < p → p < T → VarID (s.trail.getD p 0) ∉ seen := by
  intro T
  induction T with
  | zero =>
    intro p0 h
    omega
  | succ T ih =>
    intro p0 hp0 hmem
    by_cases hT : VarID (s.trail.getD T 0) ∈ seen
    · refine ⟨T, ?_, by omega, by omega, hT, ?_⟩
      · show (if VarID (s.trail.getD T 0) ∈ seen then some T
          else selectNext s seen T) = some T
        rw [if_pos hT]
      · intro p hp1 hp2 _
        omega
    · have hp0T : p0 ≠ T := fun he => hT (he ▸ hmem)
      obtain ⟨t, hsel, ht1, ht2, ht3, ht4⟩ := ih p0 (by omega) hmem
      refine ⟨t, ?_, ht1, by omega, ht3, ?_⟩
      · show (if VarID (s.trail.getD T 0) ∈ seen then some T
          else selectNext s seen T) = some t
        rw [if_neg hT, hsel]
      · intro p hpt hpT
        by_cases hpT' : p = T
        · rw [hpT']
          exact hT
        · exact ht4 p hpt (by omega)

theorem processReason_spec (s : Solver) (T : ℕ)
    (hT : T ≤ s.trail.length)
    (hlev : ∀ p : ℕ, p < s.trail.length →
      s.assignLevels (VarID (s.trail.getD p 0)) = (levelOfPos s p : ℤ))
    (hnd : (s.trail.map VarID).Nodup) :
    ∀ (lits : List ℕ) (st : AnalyzeState),
      ReasonOK s T lits → AnalyzeInv s st T →
      AnalyzeInv s (processReason s lits st) T
      ∧ st.nIP ≤ (processReason s lits st).nIP
      ∧ st.seen ⊆ (processReason s lits st).seen
      ∧ ∀ q ∈ lits, VarID q ∈ (processReason s lits st).seen := by
  intro lits
  induction lits with
  | nil =>
    intro st _ hinv
    exact ⟨hinv, le_refl _, fun a ha => ha,
      fun q hq => absurd hq (List.not_mem_nil q)⟩
  | cons q qs ih =>
    intro st hok hinv
    obtain ⟨hq1, pq, hpq1, hpq2⟩ := hok q (List.mem_cons_self q qs)
    have hokqs : ReasonOK s T qs := fun r hr => hok r (List.mem_cons_of_mem q hr)
    have hpqlen : pq < s.trail.length := by omega
    have hred : processReason s (q :: qs) st =
        if VarID q ∈ st.seen then processReason s qs st
        else if s.assignLevels (VarID q) = (s.decisionLevel : ℤ) then
          processReason s qs
            { st with seen := insert (VarID q) st.seen, nIP := st.nIP + 1 }
        else
          processReason s qs
            { st with
                seen := insert (VarID q) st.seen
                btLevel := max st.btLevel (s.assignLevels (VarID q))
                learnts := st.learnts ++ [opposite q] } := rfl
    rw [hred]
    by_cases hseen : VarID q ∈ st.seen
    · rw [if_pos hseen]
      obtain ⟨I1, I2, I3, I4⟩ := ih st hokqs hinv
      refine ⟨I1, I2, I3, ?_⟩
      intro r hr
      rcases List.mem_cons.mp hr with he | hm
      · rw [he]
        exact I3 hseen
      · exact I4 r hm
    · rw [if_neg hseen]
      have huniq : ∀ p : ℕ, p < T → VarID (s.trail.getD p 0) = VarID q →
          p = pq := by
        intro p hp hv
        by_contra hne
        exact varID_getD_ne hnd (by omega : p < s.trail.length) hpqlen hne
          (hv.trans hpq2.symm)
      by_cases hlevq : s.assignLevels (VarID q) = (s.decisionLevel : ℤ)
      · rw [if_pos hlevq]
        have hset : seenDLPos s (insert (VarID q) st.seen) T
            = insert pq (seenDLPos s st.seen T) := by
          ext p
          simp only [seenDLPos, Finset.mem_filter, Finset.mem_range,
            Finset.mem_insert]
          constructor
          · rintro ⟨hpT, hv | hv, hl⟩
            · exact Or.inl (huniq p hpT hv)
            · exact Or.inr ⟨hpT, hv, hl⟩
          · rintro (he | ⟨hpT, hv, hl⟩)
            · subst he
              refine ⟨hpq1, Or.inl hpq2, ?_⟩
              rw [hpq2]
              exact hlevq
            · exact ⟨hpT, Or.inr hv, hl⟩
        have hpqnot : pq ∉ seenDLPos s st.seen T := by
          simp only [seenDLPos, Finset.mem_filter, Finset.mem_range]
          rintro ⟨_, hv, _⟩
          rw [hpq2] at hv
          exact hseen hv
        have hinv' : AnalyzeInv s
            { st with seen := insert (VarID q) st.seen, nIP := st.nIP + 1 }
            T := by
          refine ⟨?_, hinv.2.1, hinv.2.2.1, hinv.2.2.2⟩
          show st.nIP + 1 = _
          rw [hset, Finset.card_insert_of_not_mem hpqnot, hinv.1]
          push_cast
          ring
        obtain ⟨I1, I2, I3, I4⟩ := ih _ hokqs hinv'
        refine ⟨I1, ?_, ?_, ?_⟩
        · refine le_trans ?_ I2
          show st.nIP ≤ st.nIP + 1
          omega
        · refine subset_trans ?_ I3
          exact Finset.subset_insert _ _
        · intro r hr
          rcases List.mem_cons.mp hr with he | hm
          · rw [he]
            exact I3 (Finset.mem_insert_self _ _)
          · exact I4 r hm
      · rw [if_neg hlevq]
        have hlevle : s.assignLevels (VarID q) < (s.decisionLevel : ℤ) := by
          have h1 := hlev pq hpqlen
          rw [hpq2] at h1
          have h2 : levelOfPos s pq ≤ s.decisionLevel :=
            levelOfPos_le_decisionLevel s pq
          rw [h1]
          rw [h1] at hlevq
          have : levelOfPos s pq ≠ s.decisionLevel := by
            intro he
            exact hlevq (by rw [he])
          omega
        have hlevnn : (0 : ℤ) ≤ s.assignLevels (VarID q) := by
          have h1 := hlev pq hpqlen
          rw [hpq2] at h1
          rw [h1]
          positivity
        have hset : seenDLPos s (insert (VarID q) st.seen) T
            = seenDLPos s st.seen T := by
          ext p
          simp only [seenDLPos, Finset.mem_filter, Finset.mem_range,
            Finset.mem_insert]
          constructor
          · rintro ⟨hpT, hv | hv, hl⟩
            · exfalso
              rw [hv] at hl
              exact hlevq hl
            · exact ⟨hpT, hv, hl⟩
          · rintro ⟨hpT, hv, hl⟩
            exact ⟨hpT, Or.inr hv, hl⟩
        have hinv' : AnalyzeInv s
            { st with
                seen := insert (VarID q) st.seen
                btLevel := max st.btLevel (s.assignLevels (VarID q))
                learnts := st.learnts ++ [opposite q] } T := by
          refine ⟨?_, ?_, ?_, ?_⟩
          · show st.nIP = _
            rw [hset]
            exact hinv.1
          · intro l hl
            rcases List.mem_append.mp hl with hm | hm
            · obtain ⟨e1, e2, e3⟩ := hinv.2.1 l hm
              exact ⟨e1, e2, le_trans e3 (le_max_left _ _)⟩
            · have he : l = opposite q := List.mem_singleton.mp hm
              subst he
              rw [varID_opposite]
              exact ⟨hq1, hlevle, le_max_right _ _⟩
          · rcases le_total st.btLevel (s.assignLevels (VarID q)) with hc | hc
            · refine Or.inr ⟨opposite q, ?_, ?_⟩
              · exact List.mem_append_right _ (List.mem_singleton.mpr rfl)
              · rw [varID_opposite]
                exact (max_eq_right hc).symm
            · rw [max_eq_left hc]
              rcases hinv.2.2.1 with hz | ⟨l, hl, he⟩
              · exact Or.inl hz
              · exact Or.inr ⟨l, List.mem_append_left _ hl, he⟩
          · exact le_trans hinv.2.2.2 (le_max_left _ _)
        obtain ⟨I1, I2, I3, I4⟩ := ih _ hokqs hinv'
        refine ⟨I1, I2, ?_, ?_⟩
        · refine subset_trans ?_ I3
          exact Finset.subset_insert _ _
        · intro r hr
          rcases List.mem_cons.mp hr with he | hm
          · rw [he]
            exact I3 (Finset.mem_insert_self _ _)
          · exact I4 r hm


theorem seenDLPos_split (s : Solver) (seen : Finset ℕ) (t T : ℕ)
    (htT : t < T)
    (htmem : VarID (s.trail.getD t 0) ∈ seen)
    (htlev : s.assignLevels (VarID (s.trail.getD t 0))
      = (s.decisionLevel : ℤ))
    (hmax : ∀ p : ℕ, t < p → p < T → VarID (s.trail.getD p 0) ∉ seen) :
    seenDLPos s seen T = insert t (seenDLPos s seen t)
    ∧ t ∉ seenDLPos s seen t := by
  constructor
  · ext p
    simp only [seenDLPos, Finset.mem_filter, Finset.mem_range,
      Finset.mem_insert]
    constructor
    · rintro ⟨hpT, hv, hl⟩
      by_cases hpt : p = t
      · exact Or.inl hpt
      · rcases Nat.lt_or_ge p t with hc | hc
        · exact Or.inr ⟨hc, hv, hl⟩
        · exact absurd hv (hmax p (by omega) hpT)
    · rintro (he | ⟨hpt, hv, hl⟩)
      · subst he
        exact ⟨htT, htmem, htlev⟩
      · exact ⟨by omega, hv, hl⟩
  · simp only [seenDLPos, Finset.mem_filter, Finset.mem_range]
    rintro ⟨hc, _, _⟩
    omega

theorem analyzeLoop_spec (s : Solver)
    (hT3 : ∀ p : ℕ, p < s.trail.length →
      s.assignLevels (VarID (s.trail.getD p 0)) = (levelOfPos s p : ℤ))
    (hnd : (s.trail.map VarID).Nodup)
    (h2 : ∀ i j : ℕ, i ≤ j → j < s.trailLim.length →
      s.trailLim.getD i 0 ≤ s.trailLim.getD j 0)
    (hreasons : ReasonsWF s) (hrex : ReasonExists s)
    (hdl : 0 < s.decisionLevel) :
    ∀ (fuel : ℕ) (c : Clause) (isConfl : Bool) (T : ℕ) (st : AnalyzeState)
      (rl : List ℕ),
      (if isConfl then c.explainConflict else c.explainAssign) = rl →
      T < fuel → T ≤ s.trail.length →
      ReasonOK s T rl → AnalyzeInv s st T →
      1 ≤ (processReason s rl st).nIP →
      ∃ t : ℕ, ∃ st' : AnalyzeState,
        analyzeLoop s fuel c isConfl T st = some (t, st')
        ∧ t < s.trail.length
        ∧ s.assignLevels (VarID (s.trail.getD t 0)) = (s.decisionLevel : ℤ)
        ∧ (∀ l ∈ st'.learnts,
            s.assigns l = .lfalse
            ∧ s.assignLevels (VarID l) < (s.decisionLevel : ℤ)
            ∧ s.assignLevels (VarID l) ≤ st'.btLevel)
        ∧ (st'.btLevel = 0 ∨ ∃ l ∈ st'.learnts,
            s.assignLevels (VarID l) = st'.btLevel)
        ∧ 0 ≤ st'.btLevel := by
  intro fuel
  induction fuel with
  | zero =>
    intro c isConfl T st rl hrl hf
    omega
  | succ f ih =>
    intro c isConfl T st rl hrl hf hTlen hok hinv hge
    obtain ⟨I1, _, _, _⟩ := processReason_spec s T hTlen hT3 hnd rl st hok hinv
    have hcard : 1 ≤ (seenDLPos s (processReason s rl st).seen T).card := by
      have hc1 := I1.1
      omega
    have hne : (seenDLPos s (processReason s rl st).seen T).Nonempty :=
      Finset.card_pos.mp (by omega)
    obtain ⟨p0, hp0mem⟩ := hne
    simp only [seenDLPos, Finset.mem_filter, Finset.mem_range] at hp0mem
    obtain ⟨hp0T, hp0seen, hp0lev⟩ := hp0mem
    obtain ⟨t, hsel, ht1, ht2, ht3, ht4⟩ :=
      selectNext_spec s (processReason s rl st).seen T p0 hp0T hp0seen
    have htlen : t < s.trail.length := by omega
    have hp0M : s.trailLim.getLastD 0 ≤ p0 := by
      rw [marker_le_iff_levelOfPos_eq s h2 hdl p0]
      have hx := hT3 p0 (by omega)
      rw [hx] at hp0lev
      exact_mod_cast hp0lev
    have htM : s.trailLim.getLastD 0 ≤ t := le_trans hp0M ht1
    have htlev : s.assignLevels (VarID (s.trail.getD t 0))
        = (s.decisionLevel : ℤ) := by
      have hiff := (marker_le_iff_levelOfPos_eq s h2 hdl t).mp htM
      rw [hT3 t htlen, hiff]
    obtain ⟨hsplit, htnot⟩ :=
      seenDLPos_split s (processReason s rl st).seen t T ht2 ht3 htlev ht4
    have hcardT : (seenDLPos s (processReason s rl st).seen T).card
        = (seenDLPos s (processReason s rl st).seen t).card + 1 := by
      rw [hsplit, Finset.card_insert_of_not_mem htnot]
    have hnip2 : (processReason s rl st).nIP - 1
        = ((seenDLPos s (processReason s rl st).seen t).card : ℤ) := by
      rw [I1.1, hcardT]
      push_cast
      ring
    by_cases hbreak : (processReason s rl st).nIP - 1 ≤ 0
    · refine ⟨t, { processReason s rl st with
          nIP := (processReason s rl st).nIP - 1 },
        ?_, htlen, htlev, ?_, ?_, ?_⟩
      · simp only [analyzeLoop]
        rw [hrl, hsel]
        dsimp only
        rw [if_pos hbreak]
      · intro l hl
        exact I1.2.1 l hl
      · exact I1.2.2.1
      · exact I1.2.2.2
    · have hbreak2 : (0 : ℤ) < (processReason s rl st).nIP - 1 :=
        not_le.mp hbreak
      have hcard_t : 1 ≤ (seenDLPos s (processReason s rl st).seen t).card := by
        omega
      have hne2 : (seenDLPos s (processReason s rl st).seen t).Nonempty :=
        Finset.card_pos.mp (by omega)
      obtain ⟨p1, hp1mem⟩ := hne2
      simp only [seenDLPos, Finset.mem_filter, Finset.mem_range] at hp1mem
      obtain ⟨hp1t, hp1seen, hp1lev⟩ := hp1mem
      have hp1M : s.trailLim.getLastD 0 ≤ p1 := by
        rw [marker_le_iff_levelOfPos_eq s h2 hdl p1]
        have hx := hT3 p1 (by omega)
        rw [hx] at hp1lev
        exact_mod_cast hp1lev
      have htgtM : s.trailLim.getLastD 0 < t := by omega
      have hrsome := hrex t htlen htgtM
      obtain ⟨cid, hcid⟩ := Option.ne_none_iff_exists'.mp hrsome
      have hokN : ReasonOK s t (Clause.explainAssign (s.clauses cid)) := by
        intro qq hqq
        simp only [Clause.explainAssign, List.mem_map] at hqq
        obtain ⟨l0, hl0mem, hl0eq⟩ := hqq
        obtain ⟨j, hj, hjget⟩ := List.mem_iff_getElem.mp hl0mem
        have hjlen : 1 + j < (s.clauses cid).literals.length := by
          rw [List.length_drop] at hj
          omega
        have hgeteq : (s.clauses cid).literals.getD (1 + j) 0 = l0 := by
          rw [List.getD_eq_getElem _ _ hjlen, ← List.getElem_drop, hjget]
        obtain ⟨hfalse, pq2, hpq2a, hpq2b⟩ :=
          hreasons t htlen cid hcid (1 + j) (by omega) hjlen
        constructor
        · rw [← hl0eq, opposite_opposite]
          rw [hgeteq] at hfalse
          exact hfalse
        · refine ⟨pq2, hpq2a, ?_⟩
          rw [hpq2b, hgeteq, ← hl0eq, varID_opposite]
      have hinv2 : AnalyzeInv s
          { processReason s rl st with
            nIP := (processReason s rl st).nIP - 1 } t := by
        refine ⟨?_, I1.2.1, I1.2.2.1, I1.2.2.2⟩
        show (processReason s rl st).nIP - 1 = _
        exact hnip2
      have hgeN : 1 ≤ (processReason s (Clause.explainAssign (s.clauses cid))
          { processReason s rl st with
            nIP := (processReason s rl st).nIP - 1 }).nIP := by
        have hmono := (processReason_spec s t (by omega) hT3 hnd
          (Clause.explainAssign (s.clauses cid))
          { processReason s rl st with
            nIP := (processReason s rl st).nIP - 1 } hokN hinv2).2.1
        have hst2 : (1 : ℤ) ≤ ({ processReason s rl st with
            nIP := (processReason s rl st).nIP - 1 } : AnalyzeState).nIP := by
          show (1 : ℤ) ≤ (processReason s rl st).nIP - 1
          omega
        exact le_trans hst2 hmono
      obtain ⟨t', st', heq, ha, hb, hc, hd, he⟩ := ih (s.clauses cid) false t
        { processReason s rl st with
          nIP := (processReason s rl st).nIP - 1 }
        (Clause.explainAssign (s.clauses cid)) rfl
        (by omega) (by omega) hokN hinv2 hgeN
      refine ⟨t', st', ?_, ha, hb, hc, hd, he⟩
      simp only [analyzeLoop]
      rw [hrl, hsel]
      dsimp only
      rw [if_neg hbreak, hcid]
      exact heq


/-- C3: for every well-formed solver state at a positive decision level
(trail, assignment and reason bookkeeping coherent) and every conflicting
clause whose literals are all False with at least one at the current
decision level, `analyze` returns a learnt clause whose first literal
belongs to a variable assigned at the current decision level (the
first UIP), while every other literal is assigned False at a strictly
lower decision level — so the first literal is the only one at the
current level — and the returned backtrack level is the maximum of those
lower levels, or `0` when there are none. -/
theorem analyze_spec (s : Solver) (conflicting : Clause)
    (hwf : TrailWF s) (hawf : AssignsWF s) (hreasons : ReasonsWF s)
    (hrex : ReasonExists s) (hdl : 0 < s.decisionLevel)
    (hconf : ConflictWF s conflicting) :
    ∃ lits : List ℕ, ∃ lbd : ℕ, ∃ bt : ℤ,
      s.analyze conflicting = some (lits, lbd, bt)
      ∧ lits ≠ []
      ∧ s.assignLevels (VarID (lits.getD 0 0)) = (s.decisionLevel : ℤ)
      ∧ (∀ i : ℕ, 1 ≤ i → i < lits.length →
          s.assigns (lits.getD i 0) = .lfalse
          ∧ s.assignLevels (VarID (lits.getD i 0)) < (s.decisionLevel : ℤ)
          ∧ s.assignLevels (VarID (lits.getD i 0)) ≤ bt)
      ∧ (bt = 0 ∨ ∃ i : ℕ, 1 ≤ i ∧ i < lits.length
          ∧ s.assignLevels (VarID (lits.getD i 0)) = bt)
      ∧ 0 ≤ bt := by
  obtain ⟨h1, h2, h3, h4, h5⟩ := hwf
  have hT3 : ∀ p : ℕ, p < s.trail.length →
      s.assignLevels (VarID (s.trail.getD p 0)) = (levelOfPos s p : ℤ) :=
    fun p hp => (h3 p hp).2.2
  have hok : ReasonOK s s.trail.length conflicting.explainConflict := by
    intro q hq
    simp only [Clause.explainConflict, List.mem_map] at hq
    obtain ⟨l0, hl0mem, hl0eq⟩ := hq
    have hfalse : s.assigns l0 = .lfalse := hconf.1 l0 hl0mem
    constructor
    · rw [← hl0eq, opposite_opposite]
      exact hfalse
    · have hlev0 : (0 : ℤ) ≤ s.assignLevels (VarID l0) := by
        refine hawf l0 ?_
        rw [hfalse]
        decide
      obtain ⟨p, hp, hpv⟩ := h5 (VarID l0) hlev0
      refine ⟨p, hp, ?_⟩
      rw [hpv, ← hl0eq, varID_opposite]
  have hinv0 : AnalyzeInv s
      { seen := ∅, nIP := 0, learnts := [], btLevel := 0 }
      s.trail.length := by
    refine ⟨?_, ?_, Or.inl rfl, le_refl 0⟩
    · show (0 : ℤ) = _
      have hz : seenDLPos s ∅ s.trail.length = ∅ := by
        ext p
        simp [seenDLPos]
      rw [hz]
      simp
    · intro l hl
      exact absurd hl (List.not_mem_nil l)
  obtain ⟨J1, J2, J3, J4⟩ := processReason_spec s s.trail.length (le_refl _)
    hT3 h4 conflicting.explainConflict
    { seen := ∅, nIP := 0, learnts := [], btLevel := 0 } hok hinv0
  obtain ⟨lstar, hlstarmem, hlstarlev⟩ := hconf.2
  have hqstar : opposite lstar ∈ conflicting.explainConflict := by
    simp only [Clause.explainConflict, List.mem_map]
    exact ⟨lstar, hlstarmem, rfl⟩
  have hseenstar := J4 (opposite lstar) hqstar
  rw [varID_opposite] at hseenstar
  have hlev0 : (0 : ℤ) ≤ s.assignLevels (VarID lstar) := by
    rw [hlstarlev]
    positivity
  obtain ⟨pstar, hpstar, hpstarv⟩ := h5 (VarID lstar) hlev0
  have hpmem : pstar ∈ seenDLPos s
      (processReason s conflicting.explainConflict
        { seen := ∅, nIP := 0, learnts := [], btLevel := 0 }).seen
      s.trail.length := by
    simp only [seenDLPos, Finset.mem_filter, Finset.mem_range]
    refine ⟨hpstar, ?_, ?_⟩
    · rw [hpstarv]
      exact hseenstar
    · rw [hpstarv, hlstarlev]
  have hge : 1 ≤ (processReason s conflicting.explainConflict
      { seen := ∅, nIP := 0, learnts := [], btLevel := 0 }).nIP := by
    have hcp : 0 < (seenDLPos s
        (processReason s conflicting.explainConflict
          { seen := ∅, nIP := 0, learnts := [], btLevel := 0 }).seen
        s.trail.length).card := Finset.card_pos.mpr ⟨pstar, hpmem⟩
    have hc1 := J1.1
    omega
  obtain ⟨t, st', heq, ha, hb, hc, hd, he⟩ :=
    analyzeLoop_spec s hT3 h4 h2 hreasons hrex hdl (s.trail.length + 1)
      conflicting true s.trail.length
      { seen := ∅, nIP := 0, learnts := [], btLevel := 0 }
      conflicting.explainConflict rfl (by omega) (le_refl _) hok hinv0 hge
  refine ⟨opposite (s.trail.getD t 0) :: st'.learnts,
    s.computeLBD (opposite (s.trail.getD t 0) :: st'.learnts),
    st'.btLevel, ?_, by simp, ?_, ?_, ?_, he⟩
  · unfold Solver.analyze
    rw [heq]
  · show s.assignLevels
      (VarID ((opposite (s.trail.getD t 0) :: st'.learnts).getD 0 0)) = _
    rw [List.getD_cons_zero, varID_opposite]
    exact hb
  · intro i hi1 hi2
    simp only [List.length_cons] at hi2
    have hi' : i - 1 < st'.learnts.length := by omega
    have hisucc : i = (i - 1) + 1 := by omega
    have hgd : (opposite (s.trail.getD t 0) :: st'.learnts).getD i 0
        = st'.learnts.getD (i - 1) 0 := by
      conv_lhs => rw [hisucc]
      rw [List.getD_cons_succ]
    rw [hgd]
    have hmem : st'.learnts.getD (i - 1) 0 ∈ st'.learnts := by
      rw [List.getD_eq_getElem _ _ hi']
      exact List.getElem_mem ..
    exact hc _ hmem
  · rcases hd with hz | ⟨l, hlmem, hleq⟩
    · exact Or.inl hz
    · obtain ⟨j, hj, hjget⟩ := List.mem_iff_getElem.mp hlmem
      refine Or.inr ⟨j + 1, by omega, ?_, ?_⟩
      · simp only [List.length_cons]
        omega
      · have hgd : (opposite (s.trail.getD t 0) :: st'.learnts).getD (j + 1) 0
            = st'.learnts.getD j 0 := List.getD_cons_succ
        rw [hgd, List.getD_eq_getElem _ _ hj, hjget]
        exact hleq

theorem analyze_spec_witness :
    (TrailWF egSolverBT ∧ AssignsWF egSolverBT ∧ ReasonsWF egSolverBT
      ∧ ReasonExists egSolverBT ∧ 0 < egSolverBT.decisionLevel
      ∧ ConflictWF egSolverBT egClauseCF)
    ∧ ∃ lits : List ℕ, ∃ lbd : ℕ, ∃ bt : ℤ,
        egSolverBT.analyze egClauseCF = some (lits, lbd, bt)
        ∧ lits ≠ []
        ∧ egSolverBT.assignLevels (VarID (lits.getD 0 0))
            = (egSolverBT.decisionLevel : ℤ) := by
  have hawf : AssignsWF egSolverBT := by
    intro l hl
    by_cases h0 : l = 0
    · subst h0
      decide
    · by_cases h1 : l = 1
      · subst h1
        decide
      · by_cases ha2 : l = 2
        · subst ha2
          decide
        · by_cases ha3 : l = 3
          · subst ha3
            decide
          · exfalso
            apply hl
            show (if l = 0 then LBool.ltrue else if l = 1 then .lfalse
              else if l = 2 then .ltrue else if l = 3 then .lfalse
              else .lunknown) = .lunknown
            rw [if_neg h0, if_neg h1, if_neg ha2, if_neg ha3]
  have hr : ReasonsWF egSolverBT := by
    intro p hp cid hcid
    exact Option.noConfusion hcid
  have hrx : ReasonExists egSolverBT := by
    intro p hp hgt
    have e1 : egSolverBT.trail.length = 2 := rfl
    have e2 : egSolverBT.trailLim.getLastD 0 = 1 := rfl
    rw [e1] at hp
    rw [e2] at hgt
    exfalso
    omega
  have hcf : ConflictWF egSolverBT egClauseCF := by
    unfold ConflictWF
    decide
  have happ := analyze_spec egSolverBT egClauseCF egSolverBT_wf hawf hr hrx
    (by decide) hcf
  refine ⟨⟨egSolverBT_wf, hawf, hr, hrx, by decide, hcf⟩, ?_⟩
  obtain ⟨lits, lbd, bt, e1, e2, e3, _, _, _⟩ := happ
  exact ⟨lits, lbd, bt, e1, e2, e3⟩

end Yass
